import Mathlib

/-!
# Betty: SQL-backed tiled transparency log

A shallow embedding of `storage/tsql/sql.go` (the sequencer and the tile
store) and of the path parsers in `cmd/fe/main.go`, followed by theorems
about them.

Conventions.
* Go `[]byte` and `string` values are lists of byte values (`Nat`).
* Go `uint64` and `int` values are `Nat` and `Int`; every conversion and
  every increment that can wrap is written with an explicit `% 2 ^ 64`.
* The MySQL database is three tables with primary keys, each a partial map.
  A transaction works on a private view; only `Commit` publishes it.
* Every call into the database driver may fail.  Which calls fail is fixed by
  a `Faults` value, so a run is a function of the store, the input and the
  faults.  A `Commit` that fails publishes nothing (the store is ACID).
* `writer.Integrate` and the tile codec of `api.Tile` live outside the two
  source files; they are parameters (`Externals`).  The integrator reaches the
  store only through `GetTile` and `StoreTile`, so it is a `TileProg`.
* Go library calls (`base64`, `strings.Split`, `big.Int.SetString`,
  `strconv.ParseUint`) are written out from their documented behaviour.
-/

namespace Betty

/-! ## Data model -/

/-- Go byte slices and strings. -/
abbrev Bytes := List Nat

/-- Error values returned by the storage layer and its collaborators. -/
inductive Err where
  /-- The driver failed on the given statement of the transaction. -/
  | driver (stmt : Nat)
  /-- `db.BeginTx` failed. -/
  | beginTx
  /-- `tx.Commit` failed. -/
  | commit
  /-- The error `sql.ErrNoRows`. -/
  | noRows
  /-- The error `os.ErrNotExist`. -/
  | notExist
  /-- An error produced by a collaborator (checkpoint callbacks, tile codec, integrator). -/
  | external (code : Nat)
  /-- Wrapped: "failed to read checkpoint". -/
  | readCheckpoint (cause : Err)
  /-- Wrapped: "createCheckpoint". -/
  | createCheckpoint (cause : Err)
  /-- Wrapped: "writeCheckpoint". -/
  | writeCheckpoint (cause : Err)
  /-- The error "tileSize %d must be > 0 and <= 256". -/
  | tileSize (n : Nat)
  /-- Wrapped: "failed to marshal tile". -/
  | marshalTile (cause : Err)
  /-- Wrapped: "failed to parse tile". -/
  | parseTile (cause : Err)
  /-- The run-time failure "integer divide by zero"; the deferred rollback still runs. -/
  | divideByZero
  deriving DecidableEq

/-- The type `api.Tile`: a count of leaves and the node hashes. -/
structure Tile where
  NumLeaves : Nat
  Nodes : List Bytes
  deriving DecidableEq

/-- The type `writer.Batch`, of which the storage layer reads `Entries`. -/
structure Batch where
  Entries : List Bytes
  deriving DecidableEq

/-- The type `log.Params`. -/
structure Params where
  EntryBundleSize : Int
  deriving DecidableEq

/-- The three tables of the store, each keyed by its primary key. -/
structure DB where
  /-- The table `Checkpoint (Id, Note)`. -/
  Checkpoint : Nat → Option Bytes
  /-- The table `TiledLeaves (TileIdx, Data)`. -/
  TiledLeaves : Nat → Option Bytes
  /-- The table `Subtree (Level, Idx, Nodes)`. -/
  Subtree : Nat → Nat → Option Bytes

/-- A row upserted by a `REPLACE INTO` statement. -/
inductive Write where
  | checkpoint (id : Nat) (note : Bytes)
  | tiledLeaves (tileIdx : Nat) (data : Bytes)
  | subtree (level idx : Nat) (nodes : Bytes)
  deriving DecidableEq

/-- The effect of a `REPLACE INTO` statement on the tables. -/
def Write.apply : Write → DB → DB
  | .checkpoint id note, db =>
      { db with Checkpoint := fun k => if k = id then some note else db.Checkpoint k }
  | .tiledLeaves tileIdx data, db =>
      { db with TiledLeaves := fun k => if k = tileIdx then some data else db.TiledLeaves k }
  | .subtree level idx nodes, db =>
      { db with Subtree := fun l i =>
          if l = level ∧ i = idx then some nodes else db.Subtree l i }

/-- Which driver calls fail during one transaction. -/
structure Faults where
  /-- Whether `db.BeginTx` fails. -/
  beginTx : Bool
  /-- Whether the statement with the given position in the transaction fails. -/
  stmt : Nat → Bool
  /-- Whether `tx.Commit` fails. -/
  commit : Bool

/-- The fault-free run. -/
def Faults.none : Faults := { beginTx := false, stmt := fun _ => false, commit := false }

/-- An open transaction: its private view of the tables, the number of
statements it has issued, and the rows it has upserted (newest first). -/
structure Tx where
  view : DB
  issued : Nat
  writes : List Write

/-- The call `db.BeginTx` on a store whose committed state is `db`. -/
def DB.begin (db : DB) : Tx := { view := db, issued := 0, writes := [] }

/-- The call `tx.Commit` on a store whose committed state is `committed`: it
publishes the view of the transaction, unless the driver fails, and returns
the committed state afterwards. -/
def Tx.Commit (f : Faults) (committed : DB) (tx : Tx) : Except Err Unit × DB :=
  if f.commit then (.error .commit, committed) else (.ok (), tx.view)

/-- The deferred call `tx.Rollback` on a transaction that was not committed:
the view is discarded and the committed state stays. -/
def Tx.Rollback (committed : DB) (_tx : Tx) : DB := committed

/-- A single-row `SELECT` followed by `row.Scan`. -/
def Tx.queryRow (f : Faults) (tx : Tx) (row : DB → Option Bytes) : Except Err Bytes × Tx :=
  let tx' : Tx := { tx with issued := tx.issued + 1 }
  if f.stmt tx.issued then (.error (.driver tx.issued), tx')
  else
    match row tx.view with
    | none => (.error .noRows, tx')
    | some b => (.ok b, tx')

/-- A `REPLACE INTO` statement. -/
def Tx.exec (f : Faults) (tx : Tx) (w : Write) : Except Err Unit × Tx :=
  if f.stmt tx.issued then (.error (.driver tx.issued), { tx with issued := tx.issued + 1 })
  else (.ok (), { view := w.apply tx.view, issued := tx.issued + 1, writes := w :: tx.writes })

/-! ## Machine integers -/

/-- The conversion `uint64(i)` of a Go `int`. -/
def u64OfInt (i : Int) : Nat := (i % 2 ^ 64).toNat

/-- The conversion `int(n)` of a Go `uint64`. -/
def intOfU64 (n : Nat) : Int :=
  if n % 2 ^ 64 < 2 ^ 63 then (n % 2 ^ 64 : Nat) else ((n % 2 ^ 64 : Nat) : Int) - 2 ^ 64

/-- Reduction of an integer to the range of a Go `int`. -/
def wrapInt (i : Int) : Int := (i + 2 ^ 63) % 2 ^ 64 - 2 ^ 63

/-! ## Base64 (`base64.StdEncoding`) -/

/-- The alphabet of the standard encoding. -/
def b64Char (n : Nat) : Nat :=
  if n < 26 then 65 + n
  else if n < 52 then 97 + (n - 26)
  else if n < 62 then 48 + (n - 52)
  else if n = 62 then 43
  else 47

/-- The function `base64.StdEncoding.EncodeToString`: three bytes become four
characters, and the last group is padded with `=`. -/
def base64 : Bytes → Bytes
  | [] => []
  | [a] =>
      let v := (a % 256) * 65536
      [b64Char (v / 262144 % 64), b64Char (v / 4096 % 64), 61, 61]
  | [a, b] =>
      let v := (a % 256) * 65536 + (b % 256) * 256
      [b64Char (v / 262144 % 64), b64Char (v / 4096 % 64), b64Char (v / 64 % 64), 61]
  | a :: b :: c :: rest =>
      let v := (a % 256) * 65536 + (b % 256) * 256 + c % 256
      b64Char (v / 262144 % 64) :: b64Char (v / 4096 % 64) :: b64Char (v / 64 % 64)
        :: b64Char (v % 64) :: base64 rest

/-! ## The storage object and its collaborators -/

/-- The type `Storage`: the parameters and the two checkpoint callbacks. -/
structure Storage where
  params : Params
  /-- The callback of type `ParseCheckpointFunc`. -/
  parseCheckpoint : Bytes → Except Err Nat
  /-- The callback of type `CreateCheckpointFunc`. -/
  createCheckpoint : Nat → Bytes → Except Err Bytes

/-- A client of the tile store interface (`GetTile`, `StoreTile`): at each
step it either reads a tile, stores a tile, or returns. -/
inductive TileProg where
  | GetTile (level index : Nat) (k : Except Err Tile → TileProg)
  | StoreTile (level index : Nat) (tile : Tile) (k : Except Err Unit → TileProg)
  | ret (r : Except Err (Nat × Bytes))

/-- Code outside this package that the storage layer calls. -/
structure Externals where
  /-- The method `api.Tile.MarshalText`. -/
  MarshalText : Tile → Except Err Bytes
  /-- The method `api.Tile.UnmarshalText`. -/
  UnmarshalText : Bytes → Except Err Tile
  /-- The function `writer.Integrate`, as a client of the tile store it is handed. -/
  Integrate : Nat → List Bytes → TileProg

/-- The constant `checkpointID`. -/
def checkpointID : Nat := 0

/-! ## `storage/tsql/sql.go` -/

/-- The method `Storage.getTileTx`. -/
def getTileTx (x : Externals) (f : Faults) (tx : Tx) (level index : Nat) :
    Except Err Tile × Tx :=
  match tx.queryRow f (fun db => db.Subtree level index) with
  | (.error e, tx) => if e ≠ .noRows then (.error e, tx) else (.error .notExist, tx)
  | (.ok nodes, tx) =>
    match x.UnmarshalText nodes with
    | .error e => (.error (.parseTile e), tx)
    | .ok tile => (.ok tile, tx)

/-- The method `Storage.storeTileTx`. -/
def storeTileTx (x : Externals) (f : Faults) (tx : Tx) (level index : Nat) (tile : Tile) :
    Except Err Unit × Tx :=
  let tileSize := tile.NumLeaves
  if tileSize = 0 ∨ tileSize > 256 then (.error (.tileSize tileSize), tx)
  else
    match x.MarshalText tile with
    | .error e => (.error (.marshalTile e), tx)
    | .ok t => tx.exec f (.subtree level index t)

/-- The method `Storage.writeCheckpointTx`. -/
def writeCheckpointTx (f : Faults) (tx : Tx) (newCPRaw : Bytes) : Except Err Unit × Tx :=
  tx.exec f (.checkpoint checkpointID newCPRaw)

/-- Running a tile store client against the transaction, as the adapter
`transactionalStorage` does. -/
def TileProg.run (x : Externals) (f : Faults) : TileProg → Tx → Except Err (Nat × Bytes) × Tx
  | .GetTile level index k, tx =>
      let r := getTileTx x f tx level index
      (k r.1).run x f r.2
  | .StoreTile level index tile k, tx =>
      let r := storeTileTx x f tx level index tile
      (k r.1).run x f r.2
  | .ret r, tx => (r, tx)

/-- The method `Storage.doIntegrateTx`. -/
def doIntegrateTx (s : Storage) (x : Externals) (f : Faults) (tx : Tx) (from_ : Nat)
    (batch : List Bytes) : Except Err Unit × Tx :=
  match (x.Integrate from_ batch).run x f tx with
  | (.error e, tx) => (.error e, tx)
  | (.ok (newSize, newRoot), tx) =>
    match s.createCheckpoint newSize newRoot with
    | .error e => (.error (.createCheckpoint e), tx)
    | .ok cp =>
      match writeCheckpointTx f tx cp with
      | (.error e, tx) => (.error (.writeCheckpoint e), tx)
      | (.ok _, tx) => (.ok (), tx)

/-- The loop of `sequenceBatch` over `batch.Entries`: every entry is appended
to the buffer as a base64 line, and a buffer that reaches the bundle size is
written out and replaced by an empty one. -/
def appendEntries (B : Nat) (f : Faults) :
    List Bytes → (bundleIndex entriesInBundle : Nat) → (bundle : Bytes) → Tx →
      Except Err (Nat × Nat × Bytes) × Tx
  | [], bundleIndex, entriesInBundle, bundle, tx => (.ok (bundleIndex, entriesInBundle, bundle), tx)
  | e :: es, bundleIndex, entriesInBundle, bundle, tx =>
    let bundle := bundle ++ base64 e ++ [10]
    let entriesInBundle := (entriesInBundle + 1) % 2 ^ 64
    if entriesInBundle = B then
      match tx.exec f (.tiledLeaves bundleIndex bundle) with
      | (.error err, tx) => (.error err, tx)
      | (.ok _, tx) => appendEntries B f es ((bundleIndex + 1) % 2 ^ 64) 0 [] tx
    else appendEntries B f es bundleIndex entriesInBundle bundle tx

/-- The body of `sequenceBatch` between `BeginTx` and `Commit`. -/
def sequenceBatchTx (s : Storage) (x : Externals) (f : Faults) (batch : Batch) (tx : Tx) :
    Except Err (Nat × Int) × Tx :=
  match tx.queryRow f (fun db => db.Checkpoint checkpointID) with
  | (.error e, tx) => (.error (.readCheckpoint e), tx)
  | (.ok cp, tx) =>
    match s.parseCheckpoint cp with
    | .error e => (.error e, tx)
    | .ok size =>
      let B := u64OfInt s.params.EntryBundleSize
      if B = 0 then (.error .divideByZero, tx)
      else
        let bundleIndex := size / B
        let entriesInBundle := size % B
        let idealNexBatch := wrapInt (s.params.EntryBundleSize - intOfU64 entriesInBundle)
        match (if entriesInBundle > 0 then tx.queryRow f (fun db => db.TiledLeaves bundleIndex)
               else (.ok [], tx)) with
        | (.error e, tx) => (.error e, tx)
        | (.ok bundle, tx) =>
          match appendEntries B f batch.Entries bundleIndex entriesInBundle bundle tx with
          | (.error e, tx) => (.error e, tx)
          | (.ok (bundleIndex, entriesInBundle, bundle), tx) =>
            match (if entriesInBundle > 0 then tx.exec f (.tiledLeaves bundleIndex bundle)
                   else (.ok (), tx)) with
            | (.error e, tx) => (.error e, tx)
            | (.ok _, tx) =>
              match doIntegrateTx s x f tx size batch.Entries with
              | (.error e, tx) => (.error e, tx)
              | (.ok _, tx) => (.ok (size, idealNexBatch), tx)

/-- The method `Storage.sequenceBatch`, run against the committed state `db`:
it returns the committed state after the call and the call's result.  On
every return before a successful `Commit` the deferred `tx.Rollback` runs. -/
def sequenceBatch (s : Storage) (x : Externals) (f : Faults) (db : DB) (batch : Batch) :
    DB × Except Err (Nat × Int) :=
  if batch.Entries.length = 0 then (db, .ok (0, 0))
  else if f.beginTx then (db, .error .beginTx)
  else
    match sequenceBatchTx s x f batch db.begin with
    | (.error e, tx) => (tx.Rollback db, .error e)
    | (.ok r, tx) =>
      match tx.Commit f db with
      | (.error e, db') => (tx.Rollback db', .error e)
      | (.ok _, db') => (db', .ok r)

/-! ## Entry bundles -/

/-- The bundle text of a run of entries: each entry as a base64 line. -/
def encodeEntries (es : List Bytes) : Bytes := (es.map fun e => base64 e ++ [10]).flatten

/-- The table of entry bundles is the dense, left-packed encoding of the log
`L` with bundle size `B`: bundle `k` exists exactly when `k * B < |L|`, and it
holds the entries of `L` at positions `[k * B, min ((k + 1) * B) |L|)`. -/
def DenseBundles (B : Nat) (L : List Bytes) (t : Nat → Option Bytes) : Prop :=
  ∀ k, t k = if k * B < L.length then some (encodeEntries ((L.drop (k * B)).take B)) else none

/-! ## Go standard library: `strings` -/

/-- The call `strings.Split(s, sep)` for a separator of one byte: the pieces
of `s` between the occurrences of `sep`. -/
def stringsSplit (s : Bytes) (sep : Nat) : List Bytes :=
  match s with
  | [] => [[]]
  | c :: cs =>
    if c = sep then [] :: stringsSplit cs sep
    else
      match stringsSplit cs sep with
      | [] => [[c]]
      | p :: ps => (c :: p) :: ps

/-- The call `strings.Join(elems, "")`. -/
def stringsJoin (elems : List Bytes) : Bytes := elems.flatten

/-- The lines of a bundle: the pieces between newline bytes, without the
empty piece after the final newline. -/
def bundleLines (data : Bytes) : List Bytes := (stringsSplit data 10).dropLast

/-! ## Go standard library calls made by `cmd/fe/main.go` -/

/-- The digit value that `nat.scan` of `math/big` gives a character for a base
of at most 36; `63` stands for "not a digit". -/
def digitVal (ch : Nat) : Nat :=
  if 48 ≤ ch ∧ ch ≤ 57 then ch - 48
  else if 97 ≤ ch ∧ ch ≤ 122 then ch - 97 + 10
  else if 65 ≤ ch ∧ ch ≤ 90 then ch - 65 + 10
  else 63

/-- The digit loop of `nat.scan` for base 16: it consumes digits below 16 and
stops in front of the first other character.  It returns the value, the
number of digits read and the unread rest. -/
def scanDigits : Bytes → Nat → Nat → Nat × Nat × Bytes
  | [], z, count => (z, count, [])
  | ch :: rest, z, count =>
    if 16 ≤ digitVal ch then (z, count, ch :: rest)
    else scanDigits rest (z * 16 + digitVal ch) (count + 1)

/-- The call `(*big.Int).SetString(s, 16)`: an optional sign, then at least
one hexadecimal digit, then the end of the string.  `none` is the result
`ok = false`. -/
def bigSetString16 (s : Bytes) : Option Int :=
  match s with
  | [] => none
  | ch :: rest =>
    let body := if ch = 45 ∨ ch = 43 then rest else ch :: rest
    match scanDigits body 0 0 with
    | (abs, count, remaining) =>
      if count = 0 then none
      else if remaining ≠ [] then none
      else some (if ch = 45 then -(abs : Int) else (abs : Int))

/-- The method `(*big.Int).Uint64`, as implemented (`low64(x.abs)`): the low
64 bits of the magnitude, whatever the sign. -/
def bigUint64 (z : Int) : Nat := z.natAbs % 2 ^ 64

/-- The error values of `strconv.ParseUint`. -/
inductive NumError where
  | syntax_
  | range
  deriving DecidableEq

/-- The helper `lower` of `strconv`: `c | ('x' - 'X')`. -/
def lower (c : Nat) : Nat := c ||| 32

/-- The loop of `strconv.ParseUint(s, 16, 64)` over the bytes of `s`. -/
def parseUintLoop : Bytes → Nat → Except NumError Nat
  | [], n => .ok n
  | c :: cs, n =>
    let d : Option Nat :=
      if 48 ≤ c ∧ c ≤ 57 then some (c - 48)
      else if 97 ≤ lower c ∧ lower c ≤ 122 then some (lower c - 97 + 10)
      else none
    match d with
    | none => .error .syntax_
    | some d =>
      if d ≥ 16 then .error .syntax_
      else if n ≥ (2 ^ 64 - 1) / 16 + 1 then .error .range
      else
        let n := n * 16 % 2 ^ 64
        let n1 := (n + d) % 2 ^ 64
        if n1 < n ∨ n1 > 2 ^ 64 - 1 then .error .range
        else parseUintLoop cs n1

/-- The call `strconv.ParseUint(s, 16, 64)`. -/
def ParseUint16 (s : Bytes) : Except NumError Nat :=
  if s = [] then .error .syntax_ else parseUintLoop s 0

/-! ## `cmd/fe/main.go` -/

/-- The errors of `parseTilePath`, each with the string it reports. -/
inductive PathErr where
  | malformedPath (path : Bytes)
  | malformedLevel (part : Bytes)
  | malformedFinalPart (part : Bytes)
  | malformedIndex (indexStr : Bytes)
  deriving DecidableEq

/-- The function `parseTilePath`; the result is `(level, index, partialTileSize)`. -/
def parseTilePath (path : Bytes) : Except PathErr (Nat × Nat × Nat) :=
  match stringsSplit path 47 with
  | [p0, p1, p2, p3, p4] =>
    match bigSetString16 p0 with
    | none => .error (.malformedLevel p0)
    | some t =>
      let level := bigUint64 t
      let lastParts := stringsSplit p4 46
      if lastParts.length > 2 then .error (.malformedFinalPart p4)
      else
        let p4' := lastParts.headD []
        let partialTileSize : Option Nat :=
          match lastParts with
          | [_, l1] => (bigSetString16 l1).map bigUint64
          | _ => some 0
        match partialTileSize with
        | none => .error (.malformedFinalPart p4')
        | some partialTileSize =>
          let indexStr := stringsJoin [p1, p2, p3, p4']
          match bigSetString16 indexStr with
          | none => .error (.malformedIndex indexStr)
          | some t => .ok (level, bigUint64 t, partialTileSize)
  | _ => .error (.malformedPath path)

/-- An index expression `s[i]`; `none` is the run-time failure "index out of range". -/
def byteAt (s : Bytes) (i : Nat) : Option Nat := s.get? i

/-- A slice expression `s[lo:hi]`; `none` is the run-time failure "slice bounds out of range". -/
def slice (s : Bytes) (lo hi : Nat) : Option Bytes :=
  if lo ≤ hi ∧ hi ≤ s.length then some ((s.take hi).drop lo) else none

/-- The operator `||` on conditions that may fail at run time: the right
operand is evaluated only when the left one is false. -/
def orElse (a b : Option Bool) : Option Bool :=
  match a with
  | none => none
  | some true => some true
  | some false => b

/-- The test `s[i] != os.PathSeparator`. -/
def notSeparatorAt (s : Bytes) (i : Nat) : Option Bool := (byteAt s i).map fun c => c != 47

/-- What the `GET /seq/` handler does with the path value before it reads
the bundle. -/
inductive SeqPath where
  /-- A run-time failure of an index or slice expression. -/
  | outOfRange
  /-- The answer 400 "Failed to parse seq path". -/
  | badRequest
  /-- The index obtained through `ParseUint`. -/
  | index (n : Nat)
  deriving DecidableEq

/-- The path parsing of the `GET /seq/` handler. -/
def seqPath (pathValue : Bytes) : SeqPath :=
  let path := 47 :: pathValue
  match orElse (notSeparatorAt path 0) (orElse (notSeparatorAt path 3)
      (orElse (notSeparatorAt path 6) (orElse (notSeparatorAt path 9)
        (notSeparatorAt path 12)))) with
  | none => .outOfRange
  | some true => .badRequest
  | some false =>
    match slice path 1 3, slice path 4 6, slice path 7 9, slice path 10 12,
        slice path 13 path.length with
    | some s1, some s2, some s3, some s4, some s5 =>
      match ParseUint16 (s1 ++ s2 ++ s3 ++ s4 ++ s5) with
      | .error _ => .badRequest
      | .ok index => .index index
    | _, _, _, _, _ => .outOfRange

/-! ## The tile path layout -/

/-- A lowercase hexadecimal digit character. -/
def hexDigitLower (d : Nat) : Nat := if d < 10 then 48 + d else 87 + d

/-- The number `n` written with exactly `w` lowercase hexadecimal digits. -/
def hexFixed : Nat → Nat → Bytes
  | 0, _ => []
  | w + 1, n => hexFixed w (n / 16) ++ [hexDigitLower (n % 16)]

/-- The tile path of `(level, index, s)`: the level in `wl` hex digits, the
four bytes of the index from the most significant one, each in two hex
digits, and for `s > 0` a dot and `s` in `ws` hex digits. -/
def tilePath (wl level index ws s : Nat) : Bytes :=
  hexFixed wl level ++ 47 :: hexFixed 2 (index / 2 ^ 24 % 256) ++
    47 :: hexFixed 2 (index / 2 ^ 16 % 256) ++ 47 :: hexFixed 2 (index / 2 ^ 8 % 256) ++
    47 :: hexFixed 2 (index % 256) ++ (if 0 < s then 46 :: hexFixed ws s else [])

/-- A hexadecimal digit character: `0-9`, `a-f` or `A-F`. -/
def IsHexDigit (c : Nat) : Prop := (48 ≤ c ∧ c ≤ 57) ∨ (97 ≤ c ∧ c ≤ 102) ∨ (65 ≤ c ∧ c ≤ 70)

instance (c : Nat) : Decidable (IsHexDigit c) := by unfold IsHexDigit; infer_instance

/-- One or more hexadecimal digits. -/
def IsHex (s : Bytes) : Prop := s ≠ [] ∧ ∀ c ∈ s, IsHexDigit c

instance (s : Bytes) : Decidable (IsHex s) := by unfold IsHex; infer_instance

/-- The value of a string of hexadecimal digits. -/
def hexValue (s : Bytes) : Nat := s.foldl (fun z c => z * 16 + digitVal c) 0

/-- The strict format of a tile path: five components separated by `/`, each
one or more hexadecimal digits, the last optionally followed by one `.` and
one or more hexadecimal digits; the level, the concatenated index and the
partial size fit in 64 bits. -/
def StrictTilePath (path : Bytes) : Prop :=
  ∃ c0 c1 c2 c3 c4 : Bytes,
    IsHex c0 ∧ IsHex c1 ∧ IsHex c2 ∧ IsHex c3 ∧ IsHex c4 ∧
    hexValue c0 < 2 ^ 64 ∧ hexValue (c1 ++ c2 ++ c3 ++ c4) < 2 ^ 64 ∧
    (path = c0 ++ 47 :: c1 ++ 47 :: c2 ++ 47 :: c3 ++ 47 :: c4 ∨
      ∃ sfx : Bytes, IsHex sfx ∧ hexValue sfx < 2 ^ 64 ∧
        path = c0 ++ 47 :: c1 ++ 47 :: c2 ++ 47 :: c3 ++ 47 :: c4 ++ 46 :: sfx)

/-- A decision procedure for the strict format, used to refute it on
concrete paths. -/
def strictTilePathCheck (path : Bytes) : Bool :=
  match stringsSplit path 47 with
  | [c0, c1, c2, c3, last] =>
    decide (IsHex c0) && decide (IsHex c1) && decide (IsHex c2) && decide (IsHex c3) &&
      decide (hexValue c0 < 2 ^ 64) &&
      (match stringsSplit last 46 with
        | [c4] => decide (IsHex c4) && decide (hexValue (c1 ++ c2 ++ c3 ++ c4) < 2 ^ 64)
        | [c4, sfx] =>
          decide (IsHex c4) && decide (hexValue (c1 ++ c2 ++ c3 ++ c4) < 2 ^ 64) &&
            decide (IsHex sfx) && decide (hexValue sfx < 2 ^ 64)
        | _ => false)
  | _ => false

/-- An optional sign, `+` or `-`, followed by one or more hexadecimal digits. -/
def IsSignedHex (s : Bytes) : Prop :=
  ∃ ds : Bytes, IsHex ds ∧ (s = ds ∨ s = 43 :: ds ∨ s = 45 :: ds)

/-- The format that `parseTilePath` accepts: five components separated by
`/`, where the first component, the concatenation of the other four and the
suffix after the `.` of the last one (if there is one) are each an optional
sign followed by one or more hexadecimal digits. -/
def LaxTilePath (path : Bytes) : Prop :=
  ∃ c0 c1 c2 c3 c4 : Bytes,
    IsSignedHex c0 ∧ IsSignedHex (c1 ++ c2 ++ c3 ++ c4) ∧
    (path = c0 ++ 47 :: c1 ++ 47 :: c2 ++ 47 :: c3 ++ 47 :: c4 ∨
      ∃ sfx : Bytes, IsSignedHex sfx ∧
        path = c0 ++ 47 :: c1 ++ 47 :: c2 ++ 47 :: c3 ++ 47 :: c4 ++ 46 :: sfx)

/-- The bytes of an ASCII string literal. -/
def ascii (s : String) : Bytes := s.toList.map Char.toNat

/-! ## A small instance

A store with bundle size `B` whose checkpoints are the size followed by the
root, whose tiles are stored as the leaf count followed by the nodes, and
whose integrator stores one tile and returns the new size with the
concatenated batch as the root. -/

/-- A storage object with bundle size `B` and a checkpoint format `size :: root`. -/
def demoStorage (B : Int) : Storage :=
  { params := { EntryBundleSize := B }
    parseCheckpoint := fun cp =>
      match cp with
      | [] => .error (.external 1)
      | n :: _ => if n < 2 ^ 64 then .ok n else .error (.external 2)
    createCheckpoint := fun size root =>
      if size < 2 ^ 64 then .ok (size :: root) else .error (.external 4) }

/-- Collaborators for the examples. -/
def demoExternals : Externals :=
  { MarshalText := fun t => .ok (t.NumLeaves :: t.Nodes.flatten)
    UnmarshalText := fun b =>
      match b with
      | [] => .error (.external 3)
      | n :: rest => .ok { NumLeaves := n, Nodes := [rest] }
    Integrate := fun from_ batch =>
      .StoreTile 0 0 { NumLeaves := batch.length, Nodes := batch } fun r =>
        match r with
        | .error e => .ret (.error e)
        | .ok _ => .ret (.ok (from_ + batch.length, batch.flatten)) }

/-- The store of an empty log: the checkpoint of size 0 and no other row. -/
def demoEmptyDB : DB :=
  { Checkpoint := fun k => if k = 0 then some [0] else none
    TiledLeaves := fun _ => none
    Subtree := fun _ _ => none }

/-- The store of the one-entry log `[[1]]`. -/
def demoOneEntryDB : DB :=
  { Checkpoint := fun k => if k = 0 then some [1] else none
    TiledLeaves := fun k => if k = 0 then some (encodeEntries [[1]]) else none
    Subtree := fun _ _ => none }

/-- Faults: the statement at position `n` fails, every other call succeeds. -/
def failAt (n : Nat) : Faults :=
  { beginTx := false, stmt := fun i => i == n, commit := false }

/-! # Theorems -/

/-! ## Basic facts about statements -/

theorem queryRow_ok {f : Faults} {tx tx' : Tx} {row : DB → Option Bytes} {b : Bytes}
    (h : tx.queryRow f row = (.ok b, tx')) :
    row tx.view = some b ∧ tx'.view = tx.view ∧ tx'.writes = tx.writes := by
  unfold Tx.queryRow at h
  split at h
  · simp at h
  · split at h
    · simp at h
    · rename_i b' hb
      simp only [Prod.mk.injEq, Except.ok.injEq] at h
      obtain ⟨rfl, rfl⟩ := h
      exact ⟨hb, rfl, rfl⟩

theorem sequenceBatchTx_ok {s : Storage} {x : Externals} {f : Faults} {batch : Batch}
    {tx tx' : Tx} {r : Nat × Int} (h : sequenceBatchTx s x f batch tx = (.ok r, tx')) :
    ∃ cp size tx1 bundle tx2 bi eib b tx3 tx4,
      tx.queryRow f (fun db => db.Checkpoint checkpointID) = (.ok cp, tx1) ∧
      s.parseCheckpoint cp = .ok size ∧
      u64OfInt s.params.EntryBundleSize ≠ 0 ∧
      (if size % u64OfInt s.params.EntryBundleSize > 0 then
          tx1.queryRow f (fun db => db.TiledLeaves (size / u64OfInt s.params.EntryBundleSize))
        else (.ok [], tx1)) = (.ok bundle, tx2) ∧
      appendEntries (u64OfInt s.params.EntryBundleSize) f batch.Entries
          (size / u64OfInt s.params.EntryBundleSize) (size % u64OfInt s.params.EntryBundleSize)
          bundle tx2 = (.ok (bi, eib, b), tx3) ∧
      (if eib > 0 then tx3.exec f (.tiledLeaves bi b) else (.ok (), tx3)) = (.ok (), tx4) ∧
      doIntegrateTx s x f tx4 size batch.Entries = (.ok (), tx') ∧
      r = (size, wrapInt (s.params.EntryBundleSize -
            intOfU64 (size % u64OfInt s.params.EntryBundleSize))) := by
  unfold sequenceBatchTx at h
  split at h
  · simp at h
  · rename_i cp tx1 h1
    split at h
    · simp at h
    · rename_i size h2
      simp only at h
      split at h
      · simp at h
      · rename_i hB
        split at h
        · simp at h
        · rename_i bundle tx2 h3
          split at h
          · simp at h
          · rename_i bi eib b tx3 h4
            split at h
            · simp at h
            · rename_i u tx4 h5
              split at h
              · simp at h
              · rename_i u2 tx5 h6
                simp only [Prod.mk.injEq, Except.ok.injEq] at h
                obtain ⟨rfl, rfl⟩ := h
                exact ⟨cp, size, tx1, bundle, tx2, bi, eib, b, tx3, tx4, h1, h2, hB, h3, h4, h5,
                  h6, rfl⟩

theorem exec_ok {f : Faults} {tx tx' : Tx} {w : Write} {u : Unit}
    (h : tx.exec f w = (.ok u, tx')) :
    tx'.view = w.apply tx.view ∧ tx'.writes = w :: tx.writes := by
  unfold Tx.exec at h
  split at h
  · simp at h
  · simp only [Prod.mk.injEq, Except.ok.injEq] at h
    obtain ⟨-, rfl⟩ := h
    exact ⟨rfl, rfl⟩

theorem encodeEntries_snoc (xs : List Bytes) (e : Bytes) :
    encodeEntries xs ++ base64 e ++ [10] = encodeEntries (xs ++ [e]) := by
  simp [encodeEntries]

theorem appendEntries_ok {B : Nat} {f : Faults} (hB : 0 < B) (hB64 : B < 2 ^ 64) :
    ∀ (es L : List Bytes) (bi eib : Nat) (tx tx' : Tx) (r : Nat × Nat × Bytes),
      L.length = bi * B + eib → eib < B → (L.length + es.length) / B < 2 ^ 64 →
      appendEntries B f es bi eib (encodeEntries (L.drop (bi * B))) tx = (.ok r, tx') →
      r = ((L.length + es.length) / B, (L.length + es.length) % B,
            encodeEntries ((L ++ es).drop ((L.length + es.length) / B * B))) ∧
      (∀ k, tx'.view.TiledLeaves k =
          if bi ≤ k ∧ k < (L.length + es.length) / B then
            some (encodeEntries (((L ++ es).drop (k * B)).take B))
          else tx.view.TiledLeaves k) ∧
      tx'.view.Checkpoint = tx.view.Checkpoint ∧ tx'.view.Subtree = tx.view.Subtree := by
  intro es
  induction es with
  | nil =>
    intro L bi eib tx tx' r hlen heib _ h
    simp only [appendEntries, Prod.mk.injEq, Except.ok.injEq] at h
    obtain ⟨rfl, rfl⟩ := h
    have hdiv : (L.length + 0) / B = bi := by
      rw [Nat.add_zero, hlen, Nat.mul_comm, Nat.mul_add_div hB, Nat.div_eq_of_lt heib,
        Nat.add_zero]
    have hmod : (L.length + 0) % B = eib := by
      rw [Nat.add_zero, hlen, Nat.mul_comm, Nat.mul_add_mod, Nat.mod_eq_of_lt heib]
    refine ⟨?_, fun k => ?_, rfl, rfl⟩
    · simp only [List.length_nil, hdiv, hmod, List.append_nil]
    · have : ¬ (bi ≤ k ∧ k < bi) := by omega
      simp only [List.length_nil, hdiv, this, if_false]
  | cons e es ih =>
    intro L bi eib tx tx' r hlen heib hov h
    have hlen1 : (L ++ [e]).length + es.length = L.length + (e :: es).length := by
      simp; omega
    have happ : (L ++ [e]) ++ es = L ++ e :: es := by simp
    have hle : bi * B ≤ L.length := by omega
    have hbuf : encodeEntries (L.drop (bi * B)) ++ base64 e ++ [10]
        = encodeEntries ((L ++ [e]).drop (bi * B)) := by
      rw [List.drop_append_of_le_length hle, encodeEntries_snoc]
    have hinc : (eib + 1) % 2 ^ 64 = eib + 1 := Nat.mod_eq_of_lt (by omega)
    rw [appendEntries] at h
    simp only [hinc, hbuf] at h
    split at h
    · -- the bundle is full
      rename_i hfull
      have hsucc : (bi + 1) * B = bi * B + B := by ring
      have hlenF : (L ++ [e]).length = (bi + 1) * B + 0 := by
        simp only [List.length_append, List.length_singleton, hlen]; omega
      have hseg : List.take B (List.drop (bi * B) (L ++ e :: es))
          = List.drop (bi * B) (L ++ [e]) := by
        have h1 : bi * B ≤ (L ++ [e]).length := by omega
        have h2 : (List.drop (bi * B) (L ++ [e])).length = B := by
          rw [List.length_drop]; omega
        rw [← happ, List.drop_append_of_le_length h1,
          List.take_append_of_le_length (by omega), List.take_of_length_le (by omega)]
      have hq : bi + 1 ≤ (L.length + (e :: es).length) / B := by
        rw [Nat.le_div_iff_mul_le hB, ← hlen1, hlenF]; omega
      have hbi : (bi + 1) % 2 ^ 64 = bi + 1 := Nat.mod_eq_of_lt (by omega)
      split at h
      · simp at h
      · rename_i u tx1 hw
        obtain ⟨hv1, -⟩ := exec_ok hw
        have hnil : ([] : Bytes) = encodeEntries ((L ++ [e]).drop ((bi + 1) * B)) := by
          rw [List.drop_of_length_le (by omega)]; rfl
        rw [hbi, hnil] at h
        obtain ⟨hr, ht, hc, hs⟩ := ih (L ++ [e]) (bi + 1) 0 tx1 tx' r hlenF hB
          (by rw [hlen1]; exact hov) h
        rw [hlen1, happ] at hr ht
        refine ⟨hr, fun k => ?_, ?_, ?_⟩
        · rw [ht k]
          by_cases hk : bi + 1 ≤ k ∧ k < (L.length + (e :: es).length) / B
          · have hk' : bi ≤ k ∧ k < (L.length + (e :: es).length) / B := ⟨by omega, hk.2⟩
            rw [if_pos hk, if_pos hk']
          · rw [if_neg hk]
            by_cases hkb : k = bi
            · subst hkb
              have hk' : k ≤ k ∧ k < (L.length + (e :: es).length) / B := ⟨le_refl _, by omega⟩
              rw [if_pos hk', hv1]
              simp only [Write.apply, if_true, hseg]
            · have hk' : ¬ (bi ≤ k ∧ k < (L.length + (e :: es).length) / B) := by omega
              rw [if_neg hk', hv1]
              simp [Write.apply, hkb]
        · rw [hc, hv1]; rfl
        · rw [hs, hv1]; rfl
    · -- the bundle is still partial
      rename_i hpart
      have hlenP : (L ++ [e]).length = bi * B + (eib + 1) := by simp [hlen]; omega
      obtain ⟨hr, ht, hc, hs⟩ := ih (L ++ [e]) bi (eib + 1) tx tx' r hlenP (by omega)
        (by rw [hlen1]; exact hov) h
      rw [hlen1, happ] at hr ht
      exact ⟨hr, ht, hc, hs⟩

/-! ## Frame properties of the tile store -/

theorem getTileTx_frame (x : Externals) (f : Faults) (tx : Tx) (level index : Nat) :
    (getTileTx x f tx level index).2.view = tx.view ∧
      (getTileTx x f tx level index).2.writes = tx.writes := by
  unfold getTileTx Tx.queryRow
  split <;> rename_i h
  · split at h
    · simp only [Prod.mk.injEq] at h
      obtain ⟨-, rfl⟩ := h
      split <;> exact ⟨rfl, rfl⟩
    · split at h
      · simp only [Prod.mk.injEq] at h
        obtain ⟨-, rfl⟩ := h
        split <;> exact ⟨rfl, rfl⟩
      · simp at h
  · split at h
    · simp at h
    · split at h
      · simp at h
      · simp only [Prod.mk.injEq] at h
        obtain ⟨-, rfl⟩ := h
        split <;> exact ⟨rfl, rfl⟩

theorem storeTileTx_frame (x : Externals) (f : Faults) (tx : Tx) (level index : Nat)
    (tile : Tile) :
    (storeTileTx x f tx level index tile).2.view.TiledLeaves = tx.view.TiledLeaves ∧
      (storeTileTx x f tx level index tile).2.view.Checkpoint = tx.view.Checkpoint := by
  unfold storeTileTx
  simp only
  split
  · exact ⟨rfl, rfl⟩
  · split
    · exact ⟨rfl, rfl⟩
    · unfold Tx.exec
      split <;> exact ⟨rfl, rfl⟩

theorem run_frame (x : Externals) (f : Faults) (p : TileProg) :
    ∀ tx : Tx, (p.run x f tx).2.view.TiledLeaves = tx.view.TiledLeaves ∧
      (p.run x f tx).2.view.Checkpoint = tx.view.Checkpoint := by
  induction p with
  | GetTile level index k ih =>
    intro tx
    simp only [TileProg.run]
    obtain ⟨h1, h2⟩ := ih (getTileTx x f tx level index).1 (getTileTx x f tx level index).2
    rw [h1, h2, (getTileTx_frame x f tx level index).1]
    exact ⟨rfl, rfl⟩
  | StoreTile level index tile k ih =>
    intro tx
    simp only [TileProg.run]
    obtain ⟨h1, h2⟩ := ih (storeTileTx x f tx level index tile).1
      (storeTileTx x f tx level index tile).2
    rw [h1, h2]
    exact storeTileTx_frame x f tx level index tile
  | ret r =>
    intro tx
    exact ⟨rfl, rfl⟩

theorem doIntegrateTx_ok {s : Storage} {x : Externals} {f : Faults} {tx tx' : Tx}
    {size : Nat} {batch : List Bytes} {u : Unit}
    (h : doIntegrateTx s x f tx size batch = (.ok u, tx')) :
    ∃ newSize newRoot cp,
      ((x.Integrate size batch).run x f tx).1 = .ok (newSize, newRoot) ∧
      s.createCheckpoint newSize newRoot = .ok cp ∧
      tx'.view.Checkpoint checkpointID = some cp ∧
      tx'.view.TiledLeaves = tx.view.TiledLeaves := by
  unfold doIntegrateTx at h
  split at h
  · simp at h
  · rename_i newSize newRoot tx1 h1
    split at h
    · simp at h
    · rename_i cp h2
      split at h
      · simp at h
      · rename_i u1 tx2 h3
        simp only [Prod.mk.injEq, Except.ok.injEq] at h
        obtain ⟨-, rfl⟩ := h
        obtain ⟨hv, -⟩ := exec_ok h3
        have hfr := run_frame x f (x.Integrate size batch) tx
        rw [h1] at hfr
        refine ⟨newSize, newRoot, cp, by rw [h1], h2, ?_, ?_⟩
        · rw [hv]; simp [Write.apply]
        · rw [hv]; exact hfr.1

theorem doIntegrateTx_ok_run {s : Storage} {x : Externals} {f : Faults} {tx tx' : Tx}
    {size : Nat} {batch : List Bytes} {u : Unit}
    (h : doIntegrateTx s x f tx size batch = (.ok u, tx')) :
    ∃ newSize newRoot cp tx1,
      (x.Integrate size batch).run x f tx = (.ok (newSize, newRoot), tx1) ∧
      s.createCheckpoint newSize newRoot = .ok cp ∧
      tx'.view = (Write.checkpoint checkpointID cp).apply tx1.view := by
  unfold doIntegrateTx at h
  split at h
  · simp at h
  · rename_i newSize newRoot tx1 h1
    split at h
    · simp at h
    · rename_i cp h2
      split at h
      · simp at h
      · rename_i u1 tx2 h3
        simp only [Prod.mk.injEq, Except.ok.injEq] at h
        obtain ⟨-, rfl⟩ := h
        exact ⟨newSize, newRoot, cp, tx1, h1, h2, (exec_ok h3).1⟩

theorem exec_tiledLeaves_frame (f : Faults) (tx : Tx) (tileIdx : Nat) (data : Bytes) :
    (tx.exec f (.tiledLeaves tileIdx data)).2.view.Checkpoint = tx.view.Checkpoint ∧
      (tx.exec f (.tiledLeaves tileIdx data)).2.view.Subtree = tx.view.Subtree := by
  unfold Tx.exec
  split <;> exact ⟨rfl, rfl⟩

theorem appendEntries_frame (B : Nat) (f : Faults) :
    ∀ (es : List Bytes) (bi eib : Nat) (b : Bytes) (tx : Tx),
      (appendEntries B f es bi eib b tx).2.view.Checkpoint = tx.view.Checkpoint ∧
        (appendEntries B f es bi eib b tx).2.view.Subtree = tx.view.Subtree := by
  intro es
  induction es with
  | nil => intro bi eib b tx; exact ⟨rfl, rfl⟩
  | cons e es ih =>
    intro bi eib b tx
    rw [appendEntries]
    split
    · have hfr := exec_tiledLeaves_frame f tx bi (b ++ base64 e ++ [10])
      split
      · rename_i err tx1 hw
        rw [hw] at hfr
        exact hfr
      · rename_i u tx1 hw
        rw [hw] at hfr
        obtain ⟨h1, h2⟩ := ih ((bi + 1) % 2 ^ 64) 0 [] tx1
        exact ⟨h1.trans hfr.1, h2.trans hfr.2⟩
    · exact ih _ _ _ _

theorem sequenceBatch_ok {s : Storage} {x : Externals} {f : Faults} {db db' : DB}
    {batch : Batch} {r : Nat × Int} (hne : batch.Entries ≠ [])
    (h : sequenceBatch s x f db batch = (db', .ok r)) :
    ∃ tx', sequenceBatchTx s x f batch db.begin = (.ok r, tx') ∧ db' = tx'.view := by
  unfold sequenceBatch at h
  have hlen : ¬ batch.Entries.length = 0 := by
    intro h0; exact hne (List.length_eq_zero.mp h0)
  rw [if_neg hlen] at h
  split at h
  · simp at h
  · split at h
    · simp at h
    · rename_i r' tx' hb
      split at h
      · simp at h
      · rename_i u db1 hc
        simp only [Prod.mk.injEq, Except.ok.injEq] at h
        obtain ⟨rfl, rfl⟩ := h
        unfold Tx.Commit at hc
        split at hc
        · simp at hc
        · simp only [Prod.mk.injEq] at hc
          exact ⟨tx', hb, hc.2.symm⟩

theorem u64OfInt_eq {i : Int} (h0 : 0 ≤ i) (h1 : i < 2 ^ 63) : u64OfInt i = i.toNat := by
  unfold u64OfInt
  rw [Int.emod_eq_of_lt h0 (by omega)]

/-! ## The bundle layout after a batch -/

theorem sequenceBatchTx_dense {s : Storage} {x : Externals} {f : Faults} {batch : Batch}
    {tx tx' : Tx} {r : Nat × Int} {L : List Bytes} {cp : Bytes}
    (hB : 1 ≤ s.params.EntryBundleSize) (hint : s.params.EntryBundleSize < 2 ^ 63)
    (hcp : tx.view.Checkpoint checkpointID = some cp)
    (hparse : s.parseCheckpoint cp = .ok L.length)
    (hov : L.length + batch.Entries.length < 2 ^ 64)
    (hdense : DenseBundles s.params.EntryBundleSize.toNat L tx.view.TiledLeaves)
    (h : sequenceBatchTx s x f batch tx = (.ok r, tx')) :
    DenseBundles s.params.EntryBundleSize.toNat (L ++ batch.Entries) tx'.view.TiledLeaves := by
  obtain ⟨cp', size, tx1, bundle, tx2, bi, eib, b, tx3, tx4, h1, h2, -, h3, h4, h5, h6, -⟩ :=
    sequenceBatchTx_ok h
  rw [u64OfInt_eq (by omega) hint] at h3 h4
  generalize hBn : s.params.EntryBundleSize.toNat = Bn at *
  have hBpos : 0 < Bn := by omega
  have hB64 : Bn < 2 ^ 64 := by omega
  obtain ⟨hrow, hv1, -⟩ := queryRow_ok h1
  rw [hcp] at hrow
  obtain rfl : cp = cp' := Option.some.inj hrow
  rw [hparse] at h2
  obtain rfl : L.length = size := Except.ok.inj h2
  -- the buffer the loop starts from
  have hdm := Nat.div_add_mod L.length Bn
  have hmlt := Nat.mod_lt L.length hBpos
  have hq0 : L.length / Bn * Bn + L.length % Bn = L.length := by
    rw [Nat.mul_comm]; exact hdm
  have hstart : bundle = encodeEntries (L.drop (L.length / Bn * Bn)) ∧ tx2.view = tx.view := by
    by_cases hpos : L.length % Bn > 0
    · rw [if_pos hpos] at h3
      obtain ⟨hrow2, hv2, -⟩ := queryRow_ok h3
      rw [hv1, hdense (L.length / Bn), if_pos (by omega)] at hrow2
      refine ⟨?_, by rw [hv2, hv1]⟩
      rw [← Option.some.inj hrow2, List.take_of_length_le (by rw [List.length_drop]; omega)]
    · rw [if_neg hpos] at h3
      simp only [Prod.mk.injEq, Except.ok.injEq] at h3
      obtain ⟨rfl, rfl⟩ := h3
      refine ⟨?_, hv1⟩
      rw [List.drop_of_length_le (by omega)]; rfl
  obtain ⟨rfl, hv2⟩ := hstart
  have hovq : (L.length + batch.Entries.length) / Bn < 2 ^ 64 :=
    lt_of_le_of_lt (Nat.div_le_self _ _) hov
  obtain ⟨hr, ht, -, -⟩ := appendEntries_ok hBpos hB64 batch.Entries L (L.length / Bn)
    (L.length % Bn) tx2 tx3 (bi, eib, b) hq0.symm hmlt hovq h4
  simp only [Prod.mk.injEq] at hr
  obtain ⟨rfl, rfl, rfl⟩ := hr
  obtain ⟨-, -, -, -, -, -, hfin⟩ := doIntegrateTx_ok h6
  generalize hn : L.length + batch.Entries.length = n at *
  have hnlen : (L ++ batch.Entries).length = n := by rw [List.length_append, hn]
  have hndm := Nat.div_add_mod n Bn
  have hnmlt := Nat.mod_lt n hBpos
  have hnq : n / Bn * Bn + n % Bn = n := by rw [Nat.mul_comm]; exact hndm
  have hqq : L.length / Bn ≤ n / Bn := Nat.div_le_div_right (by omega)
  intro k
  rw [hfin, hnlen]
  have hsucc : (k + 1) * Bn = k * Bn + Bn := by ring
  by_cases hkq : k < n / Bn
  · have hk1 : (k + 1) * Bn ≤ n / Bn * Bn := Nat.mul_le_mul_right _ hkq
    have hklt : k * Bn < n := by omega
    rw [if_pos hklt]
    have hview4 : tx4.view.TiledLeaves k = tx3.view.TiledLeaves k := by
      by_cases hpos : n % Bn > 0
      · rw [if_pos hpos] at h5
        rw [(exec_ok h5).1]
        have : k ≠ n / Bn := by omega
        simp [Write.apply, this]
      · rw [if_neg hpos] at h5
        simp only [Prod.mk.injEq, Except.ok.injEq] at h5
        rw [← h5.2]
    rw [hview4, ht k]
    by_cases hk0 : L.length / Bn ≤ k
    · rw [if_pos ⟨hk0, hkq⟩]
    · have hk0' : k < L.length / Bn := by omega
      have hk2 : (k + 1) * Bn ≤ L.length / Bn * Bn := Nat.mul_le_mul_right _ hk0'
      rw [if_neg (by omega), hv2, hdense k, if_pos (by omega)]
      congr 2
      rw [List.drop_append_of_le_length (by omega),
        List.take_append_of_le_length (by rw [List.length_drop]; omega)]
  · have hk1 : n / Bn * Bn ≤ k * Bn := Nat.mul_le_mul_right _ (by omega)
    by_cases hpos : n % Bn > 0
    · rw [if_pos hpos] at h5
      rw [(exec_ok h5).1]
      by_cases hkeq : k = n / Bn
      · subst hkeq
        rw [if_pos (by omega)]
        simp only [Write.apply, if_true]
        congr 2
        rw [List.take_of_length_le (by rw [List.length_drop, hnlen]; omega)]
      · have hk2 : (n / Bn + 1) * Bn ≤ k * Bn := Nat.mul_le_mul_right _ (by omega)
        have hsucc2 : (n / Bn + 1) * Bn = n / Bn * Bn + Bn := by ring
        rw [if_neg (by omega)]
        simp only [Write.apply, hkeq, if_false]
        rw [ht k, if_neg (by omega), hv2, hdense k, if_neg (by omega)]
    · rw [if_neg hpos] at h5
      simp only [Prod.mk.injEq, Except.ok.injEq] at h5
      rw [← h5.2, if_neg (by omega), ht k, if_neg (by omega), hv2, hdense k, if_neg (by omega)]

/-! ## The sequencer: results, atomicity, checkpoint -/

/-- C4. `sequenceBatch` on a batch without entries returns `(0, 0)` without
an error and leaves the committed tables as they were, for every store state
and whatever faults the driver would have; a second call changes nothing
either. -/
theorem sequenceBatch_empty_noop (s : Storage) (x : Externals) (f f' : Faults) (db : DB) :
    sequenceBatch s x f db { Entries := [] } = (db, .ok (0, 0)) ∧
      sequenceBatch s x f' (sequenceBatch s x f db { Entries := [] }).1 { Entries := [] }
        = (db, .ok (0, 0)) := by
  simp [sequenceBatch]

/-- C2. `sequenceBatch` is atomic on failure: whenever the call returns an
error, whichever step failed, the committed contents of the three tables are
what they were before the call. -/
theorem sequenceBatch_atomic (s : Storage) (x : Externals) (f : Faults) (db db' : DB)
    (batch : Batch) (e : Err) (h : sequenceBatch s x f db batch = (db', .error e)) :
    db' = db := by
  unfold sequenceBatch at h
  split at h
  · simp at h
  · split at h
    · simp only [Prod.mk.injEq] at h
      exact h.1.symm
    · split at h
      · simp only [Prod.mk.injEq] at h
        exact h.1.symm
      · split at h
        · rename_i e' db1 hc
          simp only [Prod.mk.injEq] at h
          unfold Tx.Commit at hc
          split at hc
          · simp only [Prod.mk.injEq] at hc
            rw [← h.1, ← hc.2]
            rfl
          · simp at hc
        · simp at h

/-- Witness for C2: with bundle size 2 and the second statement (the upsert
of the bundle) failing, the call on a one-entry batch returns an error and the
store is unchanged. -/
theorem sequenceBatch_atomic_witness :
    (sequenceBatch (demoStorage 2) demoExternals (failAt 1) demoEmptyDB
        { Entries := [[104, 105]] }).2 = .error (.driver 1) ∧
      (sequenceBatch (demoStorage 2) demoExternals (failAt 1) demoEmptyDB
        { Entries := [[104, 105]] }).1 = demoEmptyDB :=
  ⟨rfl, sequenceBatch_atomic (demoStorage 2) demoExternals (failAt 1) demoEmptyDB _
    { Entries := [[104, 105]] } (.driver 1) rfl⟩

/-- C5. With a bundle size `B ≥ 1` (a Go `int`), a successful `sequenceBatch` call on a
non-empty batch returns `(size, B - size mod B)`, where `size` is the value
parsed from the checkpoint that the store held at the start of the call; the
second component lies between 1 and `B`. -/
theorem sequenceBatch_returns (s : Storage) (x : Externals) (f : Faults) (db db' : DB)
    (batch : Batch) (r : Nat × Int)
    (hB : 1 ≤ s.params.EntryBundleSize) (hint : s.params.EntryBundleSize < 2 ^ 63)
    (hne : batch.Entries ≠ [])
    (hrun : sequenceBatch s x f db batch = (db', .ok r)) :
    ∃ cp size, db.Checkpoint checkpointID = some cp ∧ s.parseCheckpoint cp = .ok size ∧
      r = (size, s.params.EntryBundleSize - (size : Int) % s.params.EntryBundleSize) ∧
      1 ≤ r.2 ∧ r.2 ≤ s.params.EntryBundleSize := by
  obtain ⟨tx', htx, -⟩ := sequenceBatch_ok hne hrun
  obtain ⟨cp, size, tx1, -, -, -, -, -, -, -, h1, h2, -, -, -, -, -, hr⟩ := sequenceBatchTx_ok htx
  obtain ⟨hrow, -, -⟩ := queryRow_ok h1
  rw [u64OfInt_eq (by omega) hint] at hr
  obtain ⟨n, hn⟩ : ∃ n : Nat, s.params.EntryBundleSize = (n : Int) :=
    ⟨s.params.EntryBundleSize.toNat, (Int.toNat_of_nonneg (by omega)).symm⟩
  rw [hn] at hr hB hint ⊢
  simp only [Int.toNat_ofNat] at hr
  have hnpos : 0 < n := by omega
  have hmlt : size % n < n := Nat.mod_lt _ hnpos
  have hcast : ((size : Int) % (n : Int)) = ((size % n : Nat) : Int) := by
    rw [Int.natCast_mod]
  have hconv : intOfU64 (size % n) = ((size % n : Nat) : Int) := by
    unfold intOfU64
    have h64 : size % n % 2 ^ 64 = size % n := Nat.mod_eq_of_lt (by omega)
    rw [h64, if_pos (by omega)]
  have hwrap : wrapInt ((n : Int) - ((size % n : Nat) : Int)) = (n : Int) - ((size % n : Nat) : Int) := by
    unfold wrapInt
    omega
  rw [hconv, hwrap] at hr
  refine ⟨cp, size, hrow, h2, ?_, ?_, ?_⟩
  · rw [hr, hcast]
  · rw [hr]; simp only; omega
  · rw [hr]; simp only; omega

/-- Witness for C5: with bundle size 2 and a log of one entry, a batch of
three entries is sequenced at index 1 with hint 1. -/
theorem sequenceBatch_returns_witness :
    ∃ cp size, demoOneEntryDB.Checkpoint checkpointID = some cp ∧
      (demoStorage 2).parseCheckpoint cp = .ok size ∧
      ((1, 1) : Nat × Int) = (size, (2 : Int) - (size : Int) % 2) ∧
      (1 : Int) ≤ 1 ∧ (1 : Int) ≤ 2 :=
  sequenceBatch_returns (demoStorage 2) demoExternals Faults.none demoOneEntryDB
    (sequenceBatch (demoStorage 2) demoExternals Faults.none demoOneEntryDB
      { Entries := [[2], [3], [4]] }).1
    { Entries := [[2], [3], [4]] } (1, 1) (by decide) (by decide) (by decide) rfl

/-- C3. Given an integrator that returns `from + len(batch)` as the new size
and checkpoint callbacks with `parseCheckpoint (createCheckpoint n r) = n`: if
the checkpoint held at the start parses to `size`, then a successful call on a
non-empty batch ran the integrator, inside the transaction and on the tiles
and checkpoint that the store held, with `from = size` and the batch's
entries; the integrator returned `(size + len(batch.Entries), newRoot)`; and
the committed store is what that run left with the checkpoint row replaced by
`createCheckpoint (size + len(batch.Entries)) newRoot`, for this `newRoot`.
That checkpoint parses to `size + len(batch.Entries)`, which is strictly
greater than `size`. -/
theorem sequenceBatch_advances (s : Storage) (x : Externals) (f : Faults) (db db' : DB)
    (batch : Batch) (r : Nat × Int) (cp : Bytes) (size : Nat)
    (hintegrate : ∀ (tx : Tx) (n : Nat) (root : Bytes),
      ((x.Integrate size batch.Entries).run x f tx).1 = .ok (n, root) →
        n = size + batch.Entries.length)
    (hround : ∀ (n : Nat) (root c : Bytes),
      s.createCheckpoint n root = .ok c → s.parseCheckpoint c = .ok n)
    (hcp : db.Checkpoint checkpointID = some cp) (hparse : s.parseCheckpoint cp = .ok size)
    (hne : batch.Entries ≠ [])
    (hrun : sequenceBatch s x f db batch = (db', .ok r)) :
    ∃ (txIn txOut : Tx) (newRoot cp' : Bytes),
      txIn.view.Checkpoint = db.Checkpoint ∧ txIn.view.Subtree = db.Subtree ∧
      (x.Integrate size batch.Entries).run x f txIn
        = (.ok (size + batch.Entries.length, newRoot), txOut) ∧
      s.createCheckpoint (size + batch.Entries.length) newRoot = .ok cp' ∧
      db' = (Write.checkpoint checkpointID cp').apply txOut.view ∧
      db'.Checkpoint checkpointID = some cp' ∧
      s.parseCheckpoint cp' = .ok (size + batch.Entries.length) ∧
      size < size + batch.Entries.length := by
  obtain ⟨tx', htx, rfl⟩ := sequenceBatch_ok hne hrun
  obtain ⟨cp1, size1, tx1, bundle, tx2, bi, eib, b, tx3, tx4, h1, h2, -, h3, h4, h5, h6, -⟩ :=
    sequenceBatchTx_ok htx
  obtain ⟨hrow, hv1, -⟩ := queryRow_ok h1
  have hrow' : db.Checkpoint checkpointID = some cp1 := hrow
  rw [hcp] at hrow'
  obtain rfl : cp = cp1 := Option.some.inj hrow'
  rw [hparse] at h2
  obtain rfl : size = size1 := Except.ok.inj h2
  -- the transaction the integrator runs in still shows the store's tiles and checkpoint
  have hv2 : tx2.view = tx1.view := by
    split at h3
    · exact (queryRow_ok h3).2.1
    · simp only [Prod.mk.injEq] at h3
      rw [← h3.2]
  have hv3 := appendEntries_frame (u64OfInt s.params.EntryBundleSize) f batch.Entries
    (size / u64OfInt s.params.EntryBundleSize) (size % u64OfInt s.params.EntryBundleSize)
    bundle tx2
  rw [h4] at hv3
  have hv4 : tx4.view.Checkpoint = tx3.view.Checkpoint ∧ tx4.view.Subtree = tx3.view.Subtree := by
    split at h5
    · have hfr := exec_tiledLeaves_frame f tx3 bi b
      rw [h5] at hfr
      exact hfr
    · simp only [Prod.mk.injEq] at h5
      rw [← h5.2]
      exact ⟨rfl, rfl⟩
  have hv0 : tx1.view = db := hv1
  obtain ⟨newSize, newRoot, cp', txOut, hi, hc, hv⟩ := doIntegrateTx_ok_run h6
  obtain rfl := hintegrate tx4 newSize newRoot (by rw [hi])
  refine ⟨tx4, txOut, newRoot, cp', ?_, ?_, hi, hc, hv, ?_, hround _ _ _ hc, ?_⟩
  · rw [hv4.1, hv3.1, hv2, hv0]
  · rw [hv4.2, hv3.2, hv2, hv0]
  · rw [hv]; simp [Write.apply]
  · have : 0 < batch.Entries.length := List.length_pos.mpr hne
    omega

/-- Witness for C3: with bundle size 2, a log of one entry and the batch
`[[2], [3], [4]]`, the integrator returns size 4 with root `[2, 3, 4]`, and the
stored checkpoint afterwards is the one made from that size and that root. -/
theorem sequenceBatch_advances_witness :
    (∃ (txIn txOut : Tx) (newRoot cp' : Bytes),
      txIn.view.Checkpoint = demoOneEntryDB.Checkpoint ∧
      txIn.view.Subtree = demoOneEntryDB.Subtree ∧
      (demoExternals.Integrate 1 [[2], [3], [4]]).run demoExternals Faults.none txIn
        = (.ok (1 + 3, newRoot), txOut) ∧
      (demoStorage 2).createCheckpoint (1 + 3) newRoot = .ok cp' ∧
      (sequenceBatch (demoStorage 2) demoExternals Faults.none demoOneEntryDB
        { Entries := [[2], [3], [4]] }).1 = (Write.checkpoint checkpointID cp').apply txOut.view ∧
      (sequenceBatch (demoStorage 2) demoExternals Faults.none demoOneEntryDB
        { Entries := [[2], [3], [4]] }).1.Checkpoint checkpointID = some cp' ∧
      (demoStorage 2).parseCheckpoint cp' = .ok (1 + 3) ∧ 1 < 1 + 3) ∧
    (sequenceBatch (demoStorage 2) demoExternals Faults.none demoOneEntryDB
        { Entries := [[2], [3], [4]] }).1.Checkpoint checkpointID = some [4, 2, 3, 4] ∧
    (demoStorage 2).createCheckpoint 4 [2, 3, 4] = .ok [4, 2, 3, 4] :=
  ⟨sequenceBatch_advances (demoStorage 2) demoExternals Faults.none demoOneEntryDB _
    { Entries := [[2], [3], [4]] } (1, 1) [1] 1
    (by
      intro tx n root h
      simp only [demoExternals, TileProg.run, Except.ok.injEq, Prod.mk.injEq] at h
      exact h.1.symm)
    (by
      intro n root c h
      simp only [demoStorage] at h
      split at h
      · rename_i hn
        simp only [Except.ok.injEq] at h
        subst h
        simp only [demoStorage, if_pos hn]
      · simp at h)
    rfl rfl (by decide) rfl, rfl, rfl⟩

/-! ## Splitting and bundle lines -/

theorem stringsSplit_ne_nil (s : Bytes) (sep : Nat) : stringsSplit s sep ≠ [] := by
  cases s with
  | nil => simp [stringsSplit]
  | cons c cs =>
    rw [stringsSplit]
    split
    · simp
    · split <;> simp

theorem stringsSplit_of_not_mem {sep : Nat} :
    ∀ {a : Bytes}, sep ∉ a → stringsSplit a sep = [a] := by
  intro a
  induction a with
  | nil => intro _; rfl
  | cons c a ih =>
    intro h
    have hc : c ≠ sep := fun hcs => h (by simp [hcs])
    have ha : sep ∉ a := fun hm => h (List.mem_cons_of_mem _ hm)
    rw [stringsSplit, if_neg hc, ih ha]

theorem stringsSplit_append {sep : Nat} (rest : Bytes) :
    ∀ {a : Bytes}, sep ∉ a → stringsSplit (a ++ sep :: rest) sep = a :: stringsSplit rest sep := by
  intro a
  induction a with
  | nil => intro _; simp [stringsSplit]
  | cons c a ih =>
    intro h
    have hc : c ≠ sep := fun hcs => h (by simp [hcs])
    have ha : sep ∉ a := fun hm => h (List.mem_cons_of_mem _ hm)
    rw [List.cons_append, stringsSplit, if_neg hc, ih ha]

theorem stringsSplit_cons_inv {sep : Nat} :
    ∀ {s p : Bytes} {ps : List Bytes}, stringsSplit s sep = p :: ps →
      sep ∉ p ∧ ((ps = [] ∧ s = p) ∨
        ∃ rest, s = p ++ sep :: rest ∧ stringsSplit rest sep = ps) := by
  intro s
  induction s with
  | nil =>
    intro p ps h
    simp only [stringsSplit, List.cons.injEq] at h
    obtain ⟨rfl, rfl⟩ := h
    simp
  | cons c cs ih =>
    intro p ps h
    rw [stringsSplit] at h
    split at h
    · rename_i hc
      simp only [List.cons.injEq] at h
      obtain ⟨rfl, rfl⟩ := h
      exact ⟨by simp, Or.inr ⟨cs, by simp [hc], rfl⟩⟩
    · rename_i hc
      split at h
      · rename_i hnil
        exact absurd hnil (stringsSplit_ne_nil cs sep)
      · rename_i q qs hq
        simp only [List.cons.injEq] at h
        obtain ⟨rfl, rfl⟩ := h
        obtain ⟨hq1, hq2⟩ := ih hq
        refine ⟨?_, ?_⟩
        · intro hm
          rcases List.mem_cons.mp hm with h1 | h1
          · exact hc h1.symm
          · exact hq1 h1
        · rcases hq2 with ⟨rfl, rfl⟩ | ⟨rest, rfl, hrest⟩
          · exact Or.inl ⟨rfl, rfl⟩
          · exact Or.inr ⟨rest, by simp, hrest⟩

theorem b64Char_ne_newline (n : Nat) : b64Char n ≠ 10 := by
  unfold b64Char
  split_ifs <;> omega

theorem newline_not_mem_base64 : ∀ e : Bytes, 10 ∉ base64 e := by
  intro e
  induction e using base64.induct with
  | case1 => simp [base64]
  | case2 a =>
    simp only [base64, List.mem_cons, List.mem_singleton, not_or, List.not_mem_nil]
    exact ⟨(b64Char_ne_newline _).symm, (b64Char_ne_newline _).symm, by omega, by omega, not_false⟩
  | case3 a b =>
    simp only [base64, List.mem_cons, List.mem_singleton, not_or, List.not_mem_nil]
    exact ⟨(b64Char_ne_newline _).symm, (b64Char_ne_newline _).symm,
      (b64Char_ne_newline _).symm, by omega, not_false⟩
  | case4 a b c rest ih =>
    simp only [base64, List.mem_cons, not_or]
    exact ⟨(b64Char_ne_newline _).symm, (b64Char_ne_newline _).symm,
      (b64Char_ne_newline _).symm, (b64Char_ne_newline _).symm, ih⟩

theorem bundleLines_encodeEntries (es : List Bytes) :
    bundleLines (encodeEntries es) = es.map base64 := by
  have h : ∀ es : List Bytes, stringsSplit (encodeEntries es) 10 = es.map base64 ++ [[]] := by
    intro es
    induction es with
    | nil => rfl
    | cons e es ih =>
      have : encodeEntries (e :: es) = base64 e ++ 10 :: encodeEntries es := by
        simp [encodeEntries]
      rw [this, stringsSplit_append _ (newline_not_mem_base64 e), ih]
      rfl
  unfold bundleLines
  rw [h es, List.dropLast_concat]

theorem dense_line {B : Nat} {L : List Bytes} {t : Nat → Option Bytes} (hB : 0 < B)
    (hd : DenseBundles B L t) (j : Nat) (hj : j < L.length) :
    ∃ data, t (j / B) = some data ∧ (bundleLines data)[j % B]? = some (base64 L[j]) := by
  have hdm := Nat.div_add_mod j B
  have hmlt := Nat.mod_lt j hB
  have hq : j / B * B + j % B = j := by rw [Nat.mul_comm]; exact hdm
  refine ⟨_, by rw [hd (j / B), if_pos (by omega)], ?_⟩
  rw [bundleLines_encodeEntries, List.getElem?_map, List.getElem?_take_of_lt hmlt,
    List.getElem?_drop, hq, List.getElem?_eq_getElem hj]
  rfl

theorem dense_full {B : Nat} {L : List Bytes} {t : Nat → Option Bytes} (hB : 0 < B)
    (hd : DenseBundles B L t) (k : Nat) (hk : (k + 1) * B ≤ L.length) :
    ∃ data, t k = some data ∧ (bundleLines data).length = B := by
  have hsucc : (k + 1) * B = k * B + B := by ring
  refine ⟨_, by rw [hd k, if_pos (by omega)], ?_⟩
  rw [bundleLines_encodeEntries, List.length_map, List.length_take, List.length_drop]
  omega

/-- C1. `sequenceBatch` keeps the entry bundles the dense, left-packed
encoding of the log.  For a bundle size `B ≥ 1` (a Go `int`, so below
`2 ^ 63`), a log `L` whose length is the size parsed from the stored
checkpoint and a non-empty batch, the new size `|L| + len(batch.Entries)`
being a `uint64` value as the checkpoint requires: if the bundle table encodes
`L` before the call, then after a successful call it encodes
`L ++ batch.Entries`; batch entry `i` is line `(|L| + i) mod B` of bundle
`(|L| + i) / B`; every bundle left of the last one has exactly `B` lines; and
the bundles with index below `|L| / B` are unchanged. -/
theorem sequenceBatch_dense (s : Storage) (x : Externals) (f : Faults) (db db' : DB)
    (batch : Batch) (r : Nat × Int) (L : List Bytes) (cp : Bytes)
    (hB : 1 ≤ s.params.EntryBundleSize) (hint : s.params.EntryBundleSize < 2 ^ 63)
    (hne : batch.Entries ≠ [])
    (hcp : db.Checkpoint checkpointID = some cp)
    (hparse : s.parseCheckpoint cp = .ok L.length)
    (hov : L.length + batch.Entries.length < 2 ^ 64)
    (hdense : DenseBundles s.params.EntryBundleSize.toNat L db.TiledLeaves)
    (hrun : sequenceBatch s x f db batch = (db', .ok r)) :
    DenseBundles s.params.EntryBundleSize.toNat (L ++ batch.Entries) db'.TiledLeaves ∧
      (∀ (i : Nat) (hi : i < batch.Entries.length),
        ∃ data, db'.TiledLeaves ((L.length + i) / s.params.EntryBundleSize.toNat) = some data ∧
          (bundleLines data)[(L.length + i) % s.params.EntryBundleSize.toNat]?
            = some (base64 batch.Entries[i])) ∧
      (∀ k, k < (L.length + batch.Entries.length - 1) / s.params.EntryBundleSize.toNat →
        ∃ data, db'.TiledLeaves k = some data ∧
          (bundleLines data).length = s.params.EntryBundleSize.toNat) ∧
      (∀ k, k < L.length / s.params.EntryBundleSize.toNat →
        db'.TiledLeaves k = db.TiledLeaves k) := by
  obtain ⟨tx', htx, rfl⟩ := sequenceBatch_ok hne hrun
  have hcp0 : db.begin.view.Checkpoint checkpointID = some cp := hcp
  have hdense0 : DenseBundles s.params.EntryBundleSize.toNat L db.begin.view.TiledLeaves :=
    hdense
  have hd' := sequenceBatchTx_dense hB hint hcp0 hparse hov hdense0 htx
  have hBpos : 0 < s.params.EntryBundleSize.toNat := by omega
  refine ⟨hd', ?_, ?_, ?_⟩
  · intro i hi
    have hj : L.length + i < (L ++ batch.Entries).length := by
      rw [List.length_append]; omega
    obtain ⟨data, h1, h2⟩ := dense_line hBpos hd' (L.length + i) hj
    refine ⟨data, h1, ?_⟩
    rw [h2, List.getElem_append_right (by omega)]
    simp
  · intro k hk
    have hk' : (k + 1) * _ ≤ _ := (Nat.le_div_iff_mul_le hBpos).mp hk
    exact dense_full hBpos hd' k (by rw [List.length_append]; omega)
  · intro k hk
    have hk' : (k + 1) * _ ≤ _ := (Nat.le_div_iff_mul_le hBpos).mp hk
    have hsucc : (k + 1) * s.params.EntryBundleSize.toNat
        = k * s.params.EntryBundleSize.toNat + s.params.EntryBundleSize.toNat := by ring
    have e1 := hd' k
    have e2 := hdense k
    simp only [DB.begin] at e2
    rw [if_pos (by rw [List.length_append]; omega)] at e1
    rw [if_pos (by omega)] at e2
    rw [e1, e2, List.drop_append_of_le_length (by omega),
      List.take_append_of_le_length (by rw [List.length_drop]; omega)]

theorem demoOneEntryDB_dense : DenseBundles 2 [[1]] demoOneEntryDB.TiledLeaves := by
  intro k
  by_cases hk : k = 0
  · subst hk; rfl
  · have : ¬ k * 2 < ([[1]] : List Bytes).length := by simp; omega
    rw [if_neg this]
    simp [demoOneEntryDB, hk]

/-- Witness for C1: with bundle size 2, the log `[[1]]` and the batch
`[[2], [3], [4]]`, the bundle table afterwards encodes `[[1], [2], [3], [4]]`. -/
theorem sequenceBatch_dense_witness :
    DenseBundles 2 ([[1]] ++ [[2], [3], [4]])
      (sequenceBatch (demoStorage 2) demoExternals Faults.none demoOneEntryDB
        { Entries := [[2], [3], [4]] }).1.TiledLeaves :=
  (sequenceBatch_dense (demoStorage 2) demoExternals Faults.none demoOneEntryDB _
    { Entries := [[2], [3], [4]] } (1, 1) [[1]] [1] (by decide) (by decide) (by decide)
    rfl rfl (by decide) demoOneEntryDB_dense rfl).1

/-- C6, evaluated.  With bundle size 4 and an empty log, a batch of one entry
is sequenced with hint 4; the following batch of exactly 4 entries is accepted
at index 1 and ends at size 5, which is no multiple of 4: bundle 0 is full
and bundle 1 is left partial with one line. -/
theorem idealNextBatch_misaligned :
    (sequenceBatch (demoStorage 4) demoExternals Faults.none demoEmptyDB
        { Entries := [[1]] }).2 = .ok (0, 4) ∧
      (sequenceBatch (demoStorage 4) demoExternals Faults.none
        (sequenceBatch (demoStorage 4) demoExternals Faults.none demoEmptyDB
          { Entries := [[1]] }).1 { Entries := [[2], [3], [4], [5]] }).2 = .ok (1, 3) ∧
      (sequenceBatch (demoStorage 4) demoExternals Faults.none
        (sequenceBatch (demoStorage 4) demoExternals Faults.none demoEmptyDB
          { Entries := [[1]] }).1 { Entries := [[2], [3], [4], [5]] }).1.Checkpoint checkpointID
        = some [5, 2, 3, 4, 5] ∧
      ((sequenceBatch (demoStorage 4) demoExternals Faults.none
        (sequenceBatch (demoStorage 4) demoExternals Faults.none demoEmptyDB
          { Entries := [[1]] }).1 { Entries := [[2], [3], [4], [5]] }).1.TiledLeaves 1).map
          bundleLines = some [base64 [5]] ∧
      (0 + 1 + 4) % 4 ≠ 0 := by
  refine ⟨rfl, rfl, rfl, ?_, by decide⟩
  decide

theorem idealNextBatch_residue (s : Storage) (x : Externals) (f : Faults) (db db' : DB)
    (batch : Batch) (r : Nat × Int)
    (hB : 1 ≤ s.params.EntryBundleSize) (hint : s.params.EntryBundleSize < 2 ^ 63)
    (hne : batch.Entries ≠ [])
    (hrun : sequenceBatch s x f db batch = (db', .ok r)) :
    ((r.1 : Int) + batch.Entries.length + r.2) % s.params.EntryBundleSize
      = (batch.Entries.length : Int) % s.params.EntryBundleSize := by
  obtain ⟨tx', htx, -⟩ := sequenceBatch_ok hne hrun
  obtain ⟨cp, size, tx1, -, -, -, -, -, -, -, -, -, -, -, -, -, -, hr⟩ := sequenceBatchTx_ok htx
  rw [u64OfInt_eq (by omega) hint] at hr
  obtain ⟨n, hn⟩ : ∃ n : Nat, s.params.EntryBundleSize = (n : Int) :=
    ⟨s.params.EntryBundleSize.toNat, (Int.toNat_of_nonneg (by omega)).symm⟩
  rw [hn] at hr hB hint ⊢
  simp only [Int.toNat_ofNat] at hr
  have hnpos : 0 < n := by omega
  have hmlt : size % n < n := Nat.mod_lt _ hnpos
  have hconv : intOfU64 (size % n) = ((size % n : Nat) : Int) := by
    unfold intOfU64
    have h64 : size % n % 2 ^ 64 = size % n := Nat.mod_eq_of_lt (by omega)
    rw [h64, if_pos (by omega)]
  have hwrap : wrapInt ((n : Int) - ((size % n : Nat) : Int))
      = (n : Int) - ((size % n : Nat) : Int) := by
    unfold wrapInt
    omega
  rw [hconv, hwrap] at hr
  subst hr
  simp only
  have hsize : (size : Int) = (n : Int) * ((size / n : Nat) : Int) + ((size % n : Nat) : Int) := by
    exact_mod_cast (Nat.div_add_mod size n).symm
  have hsum : (size : Int) + (batch.Entries.length : Int) + ((n : Int) - ((size % n : Nat) : Int))
      = (batch.Entries.length : Int) + (n : Int) * (((size / n : Nat) : Int) + 1) := by
    linear_combination hsize
  rw [hsum, Int.add_mul_emod_self_left]

/-- C7. `storeTileTx` persists only tiles with `1 ≤ NumLeaves ≤ 256`: with
`NumLeaves` equal to 0 or above 256 the call returns the tile size error and
leaves the transaction as it was, without issuing a statement; and whenever
the call upserts a row, `NumLeaves` lies in `[1, 256]` and the row is the
marshalled tile at `(level, index)` of the `Subtree` table. -/
theorem storeTileTx_numLeaves (x : Externals) (f : Faults) (tx : Tx) (level index : Nat)
    (tile : Tile) :
    ((tile.NumLeaves = 0 ∨ 256 < tile.NumLeaves) →
        storeTileTx x f tx level index tile = (.error (.tileSize tile.NumLeaves), tx)) ∧
      ((storeTileTx x f tx level index tile).2.writes ≠ tx.writes →
        1 ≤ tile.NumLeaves ∧ tile.NumLeaves ≤ 256 ∧
          ∃ t, x.MarshalText tile = .ok t ∧
            (storeTileTx x f tx level index tile).2.writes
              = Write.subtree level index t :: tx.writes) := by
  constructor
  · intro h
    unfold storeTileTx
    simp only
    rw [if_pos (by omega)]
  · unfold storeTileTx
    simp only
    split
    · intro h; exact absurd rfl h
    · rename_i hsz
      split
      · intro h; exact absurd rfl h
      · rename_i t ht
        unfold Tx.exec
        split
        · intro h; exact absurd rfl h
        · intro _
          exact ⟨by omega, by omega, t, ht, rfl⟩

/-- Witness for C7: a tile with no leaves is refused and nothing is written;
a tile with two leaves is written as its marshalled text. -/
theorem storeTileTx_numLeaves_witness :
    storeTileTx demoExternals Faults.none demoEmptyDB.begin 0 0 { NumLeaves := 0, Nodes := [] }
        = (.error (.tileSize 0), demoEmptyDB.begin) ∧
      (1 ≤ 2 ∧ 2 ≤ 256 ∧ ∃ t, demoExternals.MarshalText { NumLeaves := 2, Nodes := [[7], [8]] }
          = .ok t ∧
        (storeTileTx demoExternals Faults.none demoEmptyDB.begin 0 0
          { NumLeaves := 2, Nodes := [[7], [8]] }).2.writes
            = Write.subtree 0 0 t :: demoEmptyDB.begin.writes) :=
  ⟨(storeTileTx_numLeaves demoExternals Faults.none demoEmptyDB.begin 0 0
      { NumLeaves := 0, Nodes := [] }).1 (Or.inl rfl),
    (storeTileTx_numLeaves demoExternals Faults.none demoEmptyDB.begin 0 0
      { NumLeaves := 2, Nodes := [[7], [8]] }).2 (by decide)⟩

/-! ## Hexadecimal scanning -/

theorem digitVal_lt_iff (c : Nat) : digitVal c < 16 ↔ IsHexDigit c := by
  unfold digitVal IsHexDigit
  split_ifs <;> omega

theorem digitVal_hexDigitLower {d : Nat} (h : d < 16) : digitVal (hexDigitLower d) = d := by
  unfold digitVal hexDigitLower
  split_ifs <;> omega

theorem isHexDigit_hexDigitLower {d : Nat} (h : d < 16) : IsHexDigit (hexDigitLower d) := by
  unfold IsHexDigit hexDigitLower
  split_ifs <;> omega

theorem foldl_hex (b : Bytes) :
    ∀ z : Nat, b.foldl (fun z c => z * 16 + digitVal c) z
      = z * 16 ^ b.length + b.foldl (fun z c => z * 16 + digitVal c) 0 := by
  induction b with
  | nil => intro z; simp
  | cons c b ih =>
    intro z
    simp only [List.foldl_cons, List.length_cons]
    rw [ih (z * 16 + digitVal c), ih (0 * 16 + digitVal c)]
    ring

theorem hexValue_append (a b : Bytes) :
    hexValue (a ++ b) = hexValue a * 16 ^ b.length + hexValue b := by
  unfold hexValue
  rw [List.foldl_append, foldl_hex]

theorem scanDigits_of_digits :
    ∀ (ds : Bytes) (z count : Nat), (∀ ch ∈ ds, IsHexDigit ch) →
      scanDigits ds z count
        = (ds.foldl (fun z c => z * 16 + digitVal c) z, count + ds.length, []) := by
  intro ds
  induction ds with
  | nil => intro z count _; rfl
  | cons ch ds ih =>
    intro z count h
    have hch : digitVal ch < 16 := (digitVal_lt_iff ch).mpr (h ch (by simp))
    rw [scanDigits, if_neg (by omega), ih _ _ (fun c hc => h c (List.mem_cons_of_mem _ hc))]
    simp only [List.foldl_cons, List.length_cons, Prod.mk.injEq, and_true, true_and]
    omega

theorem scanDigits_all :
    ∀ (s : Bytes) (z count v count' : Nat), scanDigits s z count = (v, count', []) →
      (∀ ch ∈ s, IsHexDigit ch) ∧ count' = count + s.length := by
  intro s
  induction s with
  | nil =>
    intro z count v count' h
    simp only [scanDigits, Prod.mk.injEq, and_true] at h
    exact ⟨by simp, by simp [h.2]⟩
  | cons ch s ih =>
    intro z count v count' h
    rw [scanDigits] at h
    split at h
    · simp at h
    · rename_i hch
      obtain ⟨h1, h2⟩ := ih _ _ _ _ h
      refine ⟨?_, by rw [h2, List.length_cons]; omega⟩
      intro c hc
      rcases List.mem_cons.mp hc with rfl | hc
      · exact (digitVal_lt_iff _).mp (by omega)
      · exact h1 c hc

theorem isHexDigit_not_sign {c : Nat} (h : IsHexDigit c) :
    c ≠ 43 ∧ c ≠ 45 ∧ c ≠ 46 ∧ c ≠ 47 := by
  unfold IsHexDigit at h
  omega

theorem bigSetString16_of_isHex {ds : Bytes} (h : IsHex ds) :
    bigSetString16 ds = some (hexValue ds : Int) := by
  obtain ⟨hne, hall⟩ := h
  cases ds with
  | nil => exact absurd rfl hne
  | cons ch rest =>
    have hs := isHexDigit_not_sign (hall ch (by simp))
    have hbody : (if ch = 45 ∨ ch = 43 then rest else ch :: rest) = ch :: rest := by
      rw [if_neg (by omega)]
    simp only [bigSetString16, hbody, scanDigits_of_digits (ch :: rest) 0 0 hall]
    rw [if_neg (by simp), if_neg (by simp), if_neg hs.2.1]
    rfl

theorem bigSetString16_of_signed {s : Bytes} (h : IsSignedHex s) :
    ∃ t, bigSetString16 s = some t := by
  obtain ⟨ds, hds, rfl | rfl | rfl⟩ := h
  · exact ⟨_, bigSetString16_of_isHex hds⟩
  · have : ds.length ≠ 0 := fun h0 => hds.1 (List.length_eq_zero.mp h0)
    have hsc := scanDigits_of_digits ds 0 0 hds.2
    unfold bigSetString16
    simp [this, hsc]
  · have : ds.length ≠ 0 := fun h0 => hds.1 (List.length_eq_zero.mp h0)
    have hsc := scanDigits_of_digits ds 0 0 hds.2
    unfold bigSetString16
    simp [this, hsc]

theorem isSignedHex_of_bigSetString16 {s : Bytes} {t : Int} (h : bigSetString16 s = some t) :
    IsSignedHex s := by
  cases s with
  | nil => simp [bigSetString16] at h
  | cons ch rest =>
    simp only [bigSetString16] at h
    generalize hbody : (if ch = 45 ∨ ch = 43 then rest else ch :: rest) = body at h
    rcases hscan : scanDigits body 0 0 with ⟨v, count, remaining⟩
    rw [hscan] at h
    simp only at h
    split at h
    · simp at h
    · rename_i hcount
      split at h
      · simp at h
      · rename_i hrem
        have hrem' : remaining = [] := by
          by_contra hc; exact hrem hc
        subst hrem'
        obtain ⟨hall, hlen⟩ := scanDigits_all _ _ _ _ _ hscan
        have hbne : body ≠ [] := by
          intro hnil
          rw [hnil] at hlen
          simp at hlen
          exact hcount hlen
        by_cases hsign : ch = 45 ∨ ch = 43
        · rw [if_pos hsign] at hbody
          subst hbody
          refine ⟨rest, ⟨hbne, hall⟩, ?_⟩
          rcases hsign with rfl | rfl
          · exact Or.inr (Or.inr rfl)
          · exact Or.inr (Or.inl rfl)
        · rw [if_neg hsign] at hbody
          subst hbody
          exact ⟨ch :: rest, ⟨hbne, hall⟩, Or.inl rfl⟩

theorem isSignedHex_not_sep {s : Bytes} (h : IsSignedHex s) : 47 ∉ s ∧ 46 ∉ s := by
  obtain ⟨ds, hds, hs⟩ := h
  have hd : 47 ∉ ds ∧ 46 ∉ ds :=
    ⟨fun hm => (isHexDigit_not_sign (hds.2 _ hm)).2.2.2 rfl,
      fun hm => (isHexDigit_not_sign (hds.2 _ hm)).2.2.1 rfl⟩
  rcases hs with rfl | rfl | rfl
  · exact hd
  · simp [hd]
  · simp [hd]

theorem hexFixed_length (w n : Nat) : (hexFixed w n).length = w := by
  induction w generalizing n with
  | zero => rfl
  | succ w ih => simp [hexFixed, ih]

theorem hexFixed_digits (w n : Nat) : ∀ c ∈ hexFixed w n, IsHexDigit c := by
  induction w generalizing n with
  | zero => simp [hexFixed]
  | succ w ih =>
    intro c hc
    simp only [hexFixed, List.mem_append, List.mem_singleton] at hc
    rcases hc with hc | rfl
    · exact ih _ c hc
    · exact isHexDigit_hexDigitLower (Nat.mod_lt _ (by decide))

theorem hexFixed_isHex {w : Nat} (n : Nat) (hw : 1 ≤ w) : IsHex (hexFixed w n) := by
  refine ⟨fun h => ?_, hexFixed_digits w n⟩
  have := hexFixed_length w n
  rw [h] at this
  simp at this
  omega

theorem hexValue_hexFixed (w n : Nat) : hexValue (hexFixed w n) = n % 16 ^ w := by
  induction w generalizing n with
  | zero => simp [hexFixed, hexValue, Nat.mod_one]
  | succ w ih =>
    rw [hexFixed, hexValue_append, ih]
    have h1 : hexValue [hexDigitLower (n % 16)] = n % 16 := by
      simp [hexValue, digitVal_hexDigitLower (Nat.mod_lt n (by decide : 0 < 16))]
    rw [h1, List.length_singleton, pow_one, pow_succ, Nat.mul_comm (16 ^ w) 16, Nat.mod_mul]
    ring

/-! ## `parseTilePath` -/

theorem stringsSplit_five {c0 c1 c2 c3 c4 : Bytes} (h0 : 47 ∉ c0) (h1 : 47 ∉ c1)
    (h2 : 47 ∉ c2) (h3 : 47 ∉ c3) (h4 : 47 ∉ c4) :
    stringsSplit (c0 ++ 47 :: (c1 ++ 47 :: (c2 ++ 47 :: (c3 ++ 47 :: c4)))) 47
      = [c0, c1, c2, c3, c4] := by
  rw [stringsSplit_append _ h0, stringsSplit_append _ h1, stringsSplit_append _ h2,
    stringsSplit_append _ h3, stringsSplit_of_not_mem h4]

theorem parseTilePath_plain {path c0 c1 c2 c3 c4 : Bytes} {t0 t1 : Int}
    (hsplit : stringsSplit path 47 = [c0, c1, c2, c3, c4]) (hdot : 46 ∉ c4)
    (hlevel : bigSetString16 c0 = some t0)
    (hindex : bigSetString16 (c1 ++ c2 ++ c3 ++ c4) = some t1) :
    parseTilePath path = .ok (bigUint64 t0, bigUint64 t1, 0) := by
  have hjoin : stringsJoin [c1, c2, c3, c4] = c1 ++ c2 ++ c3 ++ c4 := by
    simp [stringsJoin]
  unfold parseTilePath
  rw [hsplit]
  simp only [hlevel, stringsSplit_of_not_mem hdot, List.length_singleton, List.headD_cons,
    hjoin, hindex]
  rfl

theorem parseTilePath_suffixed {path c0 c1 c2 c3 c4 sfx : Bytes} {t0 t1 t2 : Int}
    (hsplit : stringsSplit path 47 = [c0, c1, c2, c3, c4 ++ 46 :: sfx])
    (hdot : 46 ∉ c4) (hdot' : 46 ∉ sfx)
    (hlevel : bigSetString16 c0 = some t0)
    (hindex : bigSetString16 (c1 ++ c2 ++ c3 ++ c4) = some t1)
    (hsfx : bigSetString16 sfx = some t2) :
    parseTilePath path = .ok (bigUint64 t0, bigUint64 t1, bigUint64 t2) := by
  have hjoin : stringsJoin [c1, c2, c3, c4] = c1 ++ c2 ++ c3 ++ c4 := by
    simp [stringsJoin]
  have hlast : stringsSplit (c4 ++ 46 :: sfx) 46 = [c4, sfx] := by
    rw [stringsSplit_append _ hdot, stringsSplit_of_not_mem hdot']
  unfold parseTilePath
  rw [hsplit]
  simp only [hlevel, hlast, List.headD_cons, hjoin, hindex, hsfx, Option.map_some']
  rfl

theorem stringsSplit_singleton_inv {sep : Nat} {s p : Bytes}
    (h : stringsSplit s sep = [p]) : s = p := by
  rcases (stringsSplit_cons_inv h).2 with ⟨-, rfl⟩ | ⟨rest, -, hrest⟩
  · rfl
  · exact absurd hrest (stringsSplit_ne_nil rest sep)

theorem stringsSplit_cons_cons_inv {sep : Nat} {s p q : Bytes} {qs : List Bytes}
    (h : stringsSplit s sep = p :: q :: qs) :
    ∃ rest, s = p ++ sep :: rest ∧ stringsSplit rest sep = q :: qs := by
  rcases (stringsSplit_cons_inv h).2 with ⟨hnil, -⟩ | ⟨rest, hs, hrest⟩
  · simp at hnil
  · exact ⟨rest, hs, hrest⟩

theorem stringsSplit_five_inv {path c0 c1 c2 c3 c4 : Bytes}
    (h : stringsSplit path 47 = [c0, c1, c2, c3, c4]) :
    path = c0 ++ 47 :: c1 ++ 47 :: c2 ++ 47 :: c3 ++ 47 :: c4 := by
  obtain ⟨r1, rfl, h1⟩ := stringsSplit_cons_cons_inv h
  obtain ⟨r2, rfl, h2⟩ := stringsSplit_cons_cons_inv h1
  obtain ⟨r3, rfl, h3⟩ := stringsSplit_cons_cons_inv h2
  obtain ⟨r4, rfl, h4⟩ := stringsSplit_cons_cons_inv h3
  obtain rfl := stringsSplit_singleton_inv h4
  simp

theorem laxTilePath_of_ok {path : Bytes} {r : Nat × Nat × Nat}
    (h : parseTilePath path = .ok r) : LaxTilePath path := by
  unfold parseTilePath at h
  split at h
  · rename_i p0 p1 p2 p3 p4 hsplit
    have hpath := stringsSplit_five_inv hsplit
    split at h
    · simp at h
    · rename_i t0 hlevel
      simp only at h
      split at h
      · simp at h
      · rename_i hlen
        split at h
        · simp at h
        · rename_i pts hpts
          split at h
          · simp at h
          · rename_i t1 hindex
            have hjoin : ∀ c4 : Bytes, stringsJoin [p1, p2, p3, c4] = p1 ++ p2 ++ p3 ++ c4 := by
              intro c4; simp [stringsJoin]
            rw [hjoin] at hindex
            rcases hl : stringsSplit p4 46 with _ | ⟨l0, _ | ⟨l1, _ | ⟨l2, ls⟩⟩⟩
            · exact absurd hl (stringsSplit_ne_nil p4 46)
            · have hp4 := stringsSplit_singleton_inv hl
              rw [hl] at hindex
              simp only [List.headD_cons] at hindex
              subst hp4
              exact ⟨p0, p1, p2, p3, p4, isSignedHex_of_bigSetString16 hlevel,
                isSignedHex_of_bigSetString16 hindex, Or.inl hpath⟩
            · obtain ⟨rest, hp4, hrest⟩ := stringsSplit_cons_cons_inv hl
              have hr := stringsSplit_singleton_inv hrest
              subst hr
              rw [hl] at hindex hpts
              simp only [List.headD_cons] at hindex
              simp only [Option.map_eq_some'] at hpts
              obtain ⟨t2, hsfx, -⟩ := hpts
              refine ⟨p0, p1, p2, p3, l0, isSignedHex_of_bigSetString16 hlevel,
                isSignedHex_of_bigSetString16 hindex,
                Or.inr ⟨rest, isSignedHex_of_bigSetString16 hsfx, ?_⟩⟩
              rw [hpath, hp4]
              simp
            · rw [hl] at hlen
              simp at hlen
  · simp at h

theorem ok_of_laxTilePath {path : Bytes} (h : LaxTilePath path) :
    ∃ r, parseTilePath path = .ok r := by
  obtain ⟨c0, c1, c2, c3, c4, h0, hidx, hp⟩ := h
  obtain ⟨t0, ht0⟩ := bigSetString16_of_signed h0
  obtain ⟨t1, ht1⟩ := bigSetString16_of_signed hidx
  have hs0 := isSignedHex_not_sep h0
  have hsi := isSignedHex_not_sep hidx
  simp only [List.mem_append, not_or] at hsi
  obtain ⟨⟨⟨⟨h1, h2⟩, h3⟩, h4⟩, ⟨⟨⟨-, -⟩, -⟩, h4'⟩⟩ := hsi
  rcases hp with rfl | ⟨sfx, hsfx, rfl⟩
  · have hsplit : stringsSplit (c0 ++ 47 :: c1 ++ 47 :: c2 ++ 47 :: c3 ++ 47 :: c4) 47
        = [c0, c1, c2, c3, c4] := by
      rw [← stringsSplit_five hs0.1 h1 h2 h3 h4]
      simp
    exact ⟨_, parseTilePath_plain hsplit h4' ht0 ht1⟩
  · obtain ⟨t2, ht2⟩ := bigSetString16_of_signed hsfx
    have hss := isSignedHex_not_sep hsfx
    have h4s : 47 ∉ c4 ++ 46 :: sfx := by
      simp only [List.mem_append, List.mem_cons, not_or]
      exact ⟨h4, by decide, hss.1⟩
    have hsplit : stringsSplit
        (c0 ++ 47 :: c1 ++ 47 :: c2 ++ 47 :: c3 ++ 47 :: c4 ++ 46 :: sfx) 47
        = [c0, c1, c2, c3, c4 ++ 46 :: sfx] := by
      rw [← stringsSplit_five hs0.1 h1 h2 h3 h4s]
      simp
    exact ⟨_, parseTilePath_suffixed hsplit h4' hss.2 ht0 ht1 ht2⟩

theorem bigUint64_natCast {n : Nat} (h : n < 2 ^ 64) : bigUint64 (n : Int) = n := by
  unfold bigUint64
  rw [Int.natAbs_ofNat, Nat.mod_eq_of_lt h]

theorem hexValue_index (index : Nat) (h : index < 2 ^ 32) :
    hexValue (hexFixed 2 (index / 2 ^ 24 % 256) ++ hexFixed 2 (index / 2 ^ 16 % 256) ++
      hexFixed 2 (index / 2 ^ 8 % 256) ++ hexFixed 2 (index % 256)) = index := by
  simp only [hexValue_append, hexValue_hexFixed, hexFixed_length]
  norm_num
  omega

/-- C8. `parseTilePath` inverts the tile path layout: for a level and a
partial tile size that are `uint64` values and an index below `2 ^ 32`, the
path made of the level in two or more lowercase hex digits, the four bytes of
the index from the most significant one, each in two hex digits, and, when
`s > 0`, a dot and `s` in hex, is parsed to `(level, index, s)` without an
error. -/
theorem parseTilePath_tilePath (wl level index ws s : Nat) (hwl : 2 ≤ wl)
    (hlevel : level < 16 ^ wl) (hlevel64 : level < 2 ^ 64) (hindex : index < 2 ^ 32)
    (hs64 : s < 2 ^ 64) (hws : 0 < s → 1 ≤ ws ∧ s < 16 ^ ws) :
    parseTilePath (tilePath wl level index ws s) = .ok (level, index, s) := by
  have hsep : ∀ w n, 47 ∉ hexFixed w n ∧ 46 ∉ hexFixed w n := fun w n =>
    ⟨fun hm => (isHexDigit_not_sign (hexFixed_digits w n _ hm)).2.2.2 rfl,
      fun hm => (isHexDigit_not_sign (hexFixed_digits w n _ hm)).2.2.1 rfl⟩
  have ht0 : bigSetString16 (hexFixed wl level) = some ((level : Nat) : Int) := by
    rw [bigSetString16_of_isHex (hexFixed_isHex level (by omega)), hexValue_hexFixed,
      Nat.mod_eq_of_lt hlevel]
  have hidxHex : IsHex (hexFixed 2 (index / 2 ^ 24 % 256) ++ hexFixed 2 (index / 2 ^ 16 % 256)
      ++ hexFixed 2 (index / 2 ^ 8 % 256) ++ hexFixed 2 (index % 256)) := by
    refine ⟨by simp [hexFixed], ?_⟩
    intro c hc
    simp only [List.mem_append] at hc
    rcases hc with ((hc | hc) | hc) | hc <;> exact hexFixed_digits _ _ c hc
  have ht1 := bigSetString16_of_isHex hidxHex
  rw [hexValue_index index hindex] at ht1
  by_cases hs : 0 < s
  · obtain ⟨hws1, hws2⟩ := hws hs
    have ht2 : bigSetString16 (hexFixed ws s) = some ((s : Nat) : Int) := by
      rw [bigSetString16_of_isHex (hexFixed_isHex s hws1), hexValue_hexFixed,
        Nat.mod_eq_of_lt hws2]
    have h4s : 47 ∉ hexFixed 2 (index % 256) ++ 46 :: hexFixed ws s := by
      simp only [List.mem_append, List.mem_cons, not_or]
      exact ⟨(hsep _ _).1, by decide, (hsep _ _).1⟩
    have hsplit : stringsSplit (tilePath wl level index ws s) 47
        = [hexFixed wl level, hexFixed 2 (index / 2 ^ 24 % 256),
            hexFixed 2 (index / 2 ^ 16 % 256), hexFixed 2 (index / 2 ^ 8 % 256),
            hexFixed 2 (index % 256) ++ 46 :: hexFixed ws s] := by
      rw [← stringsSplit_five (hsep _ _).1 (hsep _ _).1 (hsep _ _).1 (hsep _ _).1 h4s]
      simp [tilePath, hs]
    rw [parseTilePath_suffixed hsplit (hsep _ _).2 (hsep _ _).2 ht0 ht1 ht2,
      bigUint64_natCast hlevel64, bigUint64_natCast (by omega), bigUint64_natCast hs64]
  · have hs0 : s = 0 := by omega
    have hsplit : stringsSplit (tilePath wl level index ws s) 47
        = [hexFixed wl level, hexFixed 2 (index / 2 ^ 24 % 256),
            hexFixed 2 (index / 2 ^ 16 % 256), hexFixed 2 (index / 2 ^ 8 % 256),
            hexFixed 2 (index % 256)] := by
      rw [← stringsSplit_five (hsep _ _).1 (hsep _ _).1 (hsep _ _).1 (hsep _ _).1
        (hsep _ _).1]
      simp [tilePath, hs]
    rw [parseTilePath_plain hsplit (hsep _ _).2 ht0 ht1, bigUint64_natCast hlevel64,
      bigUint64_natCast (by omega), hs0]

/-- Witness for C8: level 3, index `0x01020304` and partial size 5 give the
path `03/01/02/03/04.5`, which is parsed back to them. -/
theorem parseTilePath_tilePath_witness :
    tilePath 2 3 16909060 1 5 = ascii "03/01/02/03/04.5" ∧
      parseTilePath (tilePath 2 3 16909060 1 5) = .ok (3, 16909060, 5) :=
  ⟨by decide, parseTilePath_tilePath 2 3 16909060 1 5 (by decide) (by decide) (by decide)
    (by decide) (by decide) (fun _ => ⟨by decide, by decide⟩)⟩

/-- C9, as amended. `parseTilePath` returns an error exactly for the paths
outside the lax format: five components separated by `/`, where the first
component, the concatenation of the other four (the last one without its
suffix) and the suffix after the `.`, if there is one, are each an optional
sign followed by one or more hexadecimal digits. -/
theorem parseTilePath_error_iff (path : Bytes) :
    (∃ e, parseTilePath path = .error e) ↔ ¬ LaxTilePath path := by
  constructor
  · rintro ⟨e, he⟩ hlax
    obtain ⟨r, hr⟩ := ok_of_laxTilePath hlax
    rw [he] at hr
    cases hr
  · intro hnot
    cases hres : parseTilePath path with
    | error e => exact ⟨e, rfl⟩
    | ok r => exact absurd (laxTilePath_of_ok hres) hnot

theorem strictTilePath_check {path : Bytes} (h : StrictTilePath path) :
    strictTilePathCheck path = true := by
  obtain ⟨c0, c1, c2, c3, c4, h0, h1, h2, h3, h4, hv0, hv1, hp⟩ := h
  have hsep : ∀ {c : Bytes}, IsHex c → 47 ∉ c ∧ 46 ∉ c := fun hc =>
    ⟨fun hm => (isHexDigit_not_sign (hc.2 _ hm)).2.2.2 rfl,
      fun hm => (isHexDigit_not_sign (hc.2 _ hm)).2.2.1 rfl⟩
  rcases hp with rfl | ⟨sfx, hsfx, hv2, rfl⟩
  · have hsplit : stringsSplit (c0 ++ 47 :: c1 ++ 47 :: c2 ++ 47 :: c3 ++ 47 :: c4) 47
        = [c0, c1, c2, c3, c4] := by
      rw [← stringsSplit_five (hsep h0).1 (hsep h1).1 (hsep h2).1 (hsep h3).1 (hsep h4).1]
      simp
    simp only [List.append_assoc] at hv1
    norm_num at hv0 hv1
    unfold strictTilePathCheck
    rw [hsplit]
    simp only [stringsSplit_of_not_mem (hsep h4).2]
    simp [h0, h1, h2, h3, h4, hv0, hv1]
  · have h4s : 47 ∉ c4 ++ 46 :: sfx := by
      simp only [List.mem_append, List.mem_cons, not_or]
      exact ⟨(hsep h4).1, by decide, (hsep hsfx).1⟩
    have hsplit : stringsSplit
        (c0 ++ 47 :: c1 ++ 47 :: c2 ++ 47 :: c3 ++ 47 :: c4 ++ 46 :: sfx) 47
        = [c0, c1, c2, c3, c4 ++ 46 :: sfx] := by
      rw [← stringsSplit_five (hsep h0).1 (hsep h1).1 (hsep h2).1 (hsep h3).1 h4s]
      simp
    have hlast : stringsSplit (c4 ++ 46 :: sfx) 46 = [c4, sfx] := by
      rw [stringsSplit_append _ (hsep h4).2, stringsSplit_of_not_mem (hsep hsfx).2]
    unfold strictTilePathCheck
    rw [hsplit]
    simp only [List.append_assoc] at hv1
    norm_num at hv0 hv1 hv2
    simp only [hlast]
    simp [h0, h1, h2, h3, h4, hv0, hv1, hsfx, hv2]

/-- Counterexample to C9 as stated: paths outside the strict format that
`parseTilePath` accepts without an error.  `00//00/00/00` and
`00/00/00/00/.5` have an empty component; `-1/00/00/00/00`, `00/+1/00/00/00`
and `00/00/00/00/00.+5` carry a sign in the level (read as 1), in the index
and in the suffix; `10000000000000001/00/00/00/05` has a level that does not fit in 64
bits (it is reduced to 1), and so have the index of
`00/1000000000/00000000/00/05` (reduced to 5) and the partial size of
`00/00/00/00/00.10000000000000002` (reduced to 2). -/
theorem parseTilePath_accepts_malformed :
    (¬ StrictTilePath (ascii "00//00/00/00") ∧
        parseTilePath (ascii "00//00/00/00") = .ok (0, 0, 0)) ∧
      (¬ StrictTilePath (ascii "00/00/00/00/.5") ∧
        parseTilePath (ascii "00/00/00/00/.5") = .ok (0, 0, 5)) ∧
      (¬ StrictTilePath (ascii "-1/00/00/00/00") ∧
        parseTilePath (ascii "-1/00/00/00/00") = .ok (1, 0, 0)) ∧
      (¬ StrictTilePath (ascii "00/+1/00/00/00") ∧
        parseTilePath (ascii "00/+1/00/00/00") = .ok (0, 16777216, 0)) ∧
      (¬ StrictTilePath (ascii "00/00/00/00/00.+5") ∧
        parseTilePath (ascii "00/00/00/00/00.+5") = .ok (0, 0, 5)) ∧
      (¬ StrictTilePath (ascii "10000000000000001/00/00/00/05") ∧
        parseTilePath (ascii "10000000000000001/00/00/00/05") = .ok (1, 5, 0)) ∧
      (¬ StrictTilePath (ascii "00/1000000000/00000000/00/05") ∧
        parseTilePath (ascii "00/1000000000/00000000/00/05") = .ok (0, 5, 0)) ∧
      (¬ StrictTilePath (ascii "00/00/00/00/00.10000000000000002") ∧
        parseTilePath (ascii "00/00/00/00/00.10000000000000002") = .ok (0, 0, 2)) := by
  refine ⟨⟨?_, rfl⟩, ⟨?_, rfl⟩, ⟨?_, rfl⟩, ⟨?_, rfl⟩, ⟨?_, rfl⟩, ⟨?_, rfl⟩, ⟨?_, rfl⟩,
    ⟨?_, rfl⟩⟩ <;>
    exact fun h => absurd (strictTilePath_check h) (by decide)

/-- C10, evaluated.  For the empty path value (the request `GET /seq/`) the
handler reads `path[3]` of the one-byte string `/`, which is out of range; the
same happens at `path[12]` for `00/00/00/00`.  Neither request is answered
with 400 nor reaches `ParseUint`. -/
theorem seqPath_short_outOfRange :
    seqPath [] = .outOfRange ∧ seqPath (ascii "00/00/00/00") = .outOfRange ∧
      seqPath (ascii "abc") = .badRequest ∧
      seqPath (ascii "00/00/00/00/0f") = .index 15 := by
  decide

theorem seqPath_long (pathValue : Bytes) (h : 12 ≤ pathValue.length) :
    seqPath pathValue ≠ .outOfRange := by
  obtain ⟨a0, a1, a2, a3, a4, a5, a6, a7, a8, a9, a10, a11, rest, rfl⟩ :
      ∃ a0 a1 a2 a3 a4 a5 a6 a7 a8 a9 a10 a11 rest,
        pathValue = a0 :: a1 :: a2 :: a3 :: a4 :: a5 :: a6 :: a7 :: a8 :: a9 :: a10 :: a11
          :: rest := by
    rcases pathValue with _ | ⟨a0, _ | ⟨a1, _ | ⟨a2, _ | ⟨a3, _ | ⟨a4, _ | ⟨a5, _ | ⟨a6,
      _ | ⟨a7, _ | ⟨a8, _ | ⟨a9, _ | ⟨a10, _ | ⟨a11, rest⟩⟩⟩⟩⟩⟩⟩⟩⟩⟩⟩⟩ <;>
      simp at h
    exact ⟨a0, a1, a2, a3, a4, a5, a6, a7, a8, a9, a10, a11, rest, rfl⟩
  have horElse : ∀ (b : Bool) (y : Option Bool), (∃ c, y = some c) →
      ∃ c, orElse (some b) y = some c := by
    intro b y hy
    cases b
    · exact hy
    · exact ⟨true, rfl⟩
  have hchain : ∃ c, orElse
      (notSeparatorAt (47 :: a0 :: a1 :: a2 :: a3 :: a4 :: a5 :: a6 :: a7 :: a8 :: a9 :: a10
        :: a11 :: rest) 0)
      (orElse (notSeparatorAt (47 :: a0 :: a1 :: a2 :: a3 :: a4 :: a5 :: a6 :: a7 :: a8 :: a9
          :: a10 :: a11 :: rest) 3)
        (orElse (notSeparatorAt (47 :: a0 :: a1 :: a2 :: a3 :: a4 :: a5 :: a6 :: a7 :: a8 :: a9
            :: a10 :: a11 :: rest) 6)
          (orElse (notSeparatorAt (47 :: a0 :: a1 :: a2 :: a3 :: a4 :: a5 :: a6 :: a7 :: a8
              :: a9 :: a10 :: a11 :: rest) 9)
            (notSeparatorAt (47 :: a0 :: a1 :: a2 :: a3 :: a4 :: a5 :: a6 :: a7 :: a8 :: a9
              :: a10 :: a11 :: rest) 12)))) = some c := by
    simp only [notSeparatorAt, byteAt, List.get?_cons_zero, List.get?_cons_succ,
      Option.map_some']
    exact horElse _ _ (horElse _ _ (horElse _ _ (horElse _ _ ⟨_, rfl⟩)))
  obtain ⟨c, hc⟩ := hchain
  unfold seqPath
  simp only [hc]
  cases c
  · simp only [slice, List.length_cons]
    simp only [show (1 ≤ 3 ∧ 3 ≤ rest.length + 1 + 1 + 1 + 1 + 1 + 1 + 1 + 1 + 1 + 1 + 1 + 1 + 1)
        from by omega,
      show (4 ≤ 6 ∧ 6 ≤ rest.length + 1 + 1 + 1 + 1 + 1 + 1 + 1 + 1 + 1 + 1 + 1 + 1 + 1)
        from by omega,
      show (7 ≤ 9 ∧ 9 ≤ rest.length + 1 + 1 + 1 + 1 + 1 + 1 + 1 + 1 + 1 + 1 + 1 + 1 + 1)
        from by omega,
      show (10 ≤ 12 ∧ 12 ≤ rest.length + 1 + 1 + 1 + 1 + 1 + 1 + 1 + 1 + 1 + 1 + 1 + 1 + 1)
        from by omega,
      show (13 ≤ rest.length + 1 + 1 + 1 + 1 + 1 + 1 + 1 + 1 + 1 + 1 + 1 + 1 + 1 ∧
          rest.length + 1 + 1 + 1 + 1 + 1 + 1 + 1 + 1 + 1 + 1 + 1 + 1 + 1
            ≤ rest.length + 1 + 1 + 1 + 1 + 1 + 1 + 1 + 1 + 1 + 1 + 1 + 1 + 1)
        from by omega, if_true]
    split
    · split <;> simp
    · rename_i hnot
      exact absurd rfl (hnot _ _ _ _ _ rfl rfl rfl rfl)
  · simp

end Betty
